import Mathlib

/-!
Verification of the trie-backed spell-checking engine
(`src/c_lib/spell_checker/spell_checker_engine.cpp`).

The C++ engine is shallowly embedded: `TrieNode` mirrors the 26-slot node
(`children` as a list of 26 optional subtrees, `isEndOfWord` flag), and each
member function of `SpellCheckerEngine` becomes a pure Lean function that
rebuilds the mutated structure.  Strings are `List Char`; the C++ `int`
budget `maxDistance` is an `Int`; the DP rows, whose entries are provably
nonnegative, are `List Nat`.
-/

set_option maxHeartbeats 1000000

/-- A trie node: 26 child slots (index 0 ↦ letter a, …) and a word-terminal
flag, as in `trie.h`.  The C++ array `TrieNode* children[26]` is modelled as
a `List (Option TrieNode)`; every node the program builds has length 26. -/
inductive TrieNode : Type where
  | mk : List (Option TrieNode) → Bool → TrieNode

/-- The child-slot list of a node. -/
def TrieNode.children : TrieNode → List (Option TrieNode)
  | .mk ch _ => ch

/-- The word-terminal flag of a node. -/
def TrieNode.isEndOfWord : TrieNode → Bool
  | .mk _ e => e

/-- A freshly constructed node: 26 null children, flag false
(the `TrieNode` constructor in `trie.h`). -/
def TrieNode.empty : TrieNode := .mk (List.replicate 26 none) false

/-- Read child slot `i` (C++ `node->children[i]`). -/
def TrieNode.child (t : TrieNode) (i : Nat) : Option TrieNode :=
  t.children.getD i none

/-- Overwrite child slot `i`. -/
def TrieNode.setChild : TrieNode → Nat → Option TrieNode → TrieNode
  | .mk ch e, i, o => .mk (ch.set i o) e

/-- Overwrite the word-terminal flag. -/
def TrieNode.setEnd : TrieNode → Bool → TrieNode
  | .mk ch _, b => .mk ch b

/-- C++ loop `for i in 0..25: if (node->children[i]) return false`:
true iff every child slot is empty. -/
def noChildren (t : TrieNode) : Bool := t.children.all Option.isNone

/-- Whether `c` lies in the handled range `a`–`z`
(the C++ guard `c < 'a' || c > 'z'`, negated). -/
def isLowerAZ (c : Char) : Bool :=
  decide (97 ≤ c.toNat) && decide (c.toNat ≤ 122)

/-- C++ `index = c - 'a'`. -/
def charIndex (c : Char) : Nat := c.toNat - 97

/-- The letter whose slot is `i` (C++ `'a' + i`). -/
def charOf (i : Nat) : Char := Char.ofNat (97 + i)

/-- `std::tolower` on one character (ASCII, default locale):
`A`–`Z` map to `a`–`z`, everything else is unchanged. -/
def toLowerChar (c : Char) : Char :=
  if 65 ≤ c.toNat ∧ c.toNat ≤ 90 then Char.ofNat (c.toNat + 32) else c

/-- `SpellCheckerEngine::toLowerCase`: lower-case every character. -/
def toLowerCase (w : List Char) : List Char := w.map toLowerChar

/-- `SpellCheckerEngine::insertWord`: walk/create nodes letter by letter,
silently skipping characters outside `a`–`z`, and mark the node finally
reached as word-terminal. -/
def insertWord : TrieNode → List Char → TrieNode
  | t, [] => t.setEnd true
  | t, c :: cs =>
    if isLowerAZ c then
      let sub := (t.child (charIndex c)).getD TrieNode.empty
      t.setChild (charIndex c) (some (insertWord sub cs))
    else
      insertWord t cs

/-- `SpellCheckerEngine::searchWord`: walk the path, failing on any
character outside `a`–`z` or any missing child; at the end report the
word-terminal flag. -/
def searchWord : TrieNode → List Char → Bool
  | t, [] => t.isEndOfWord
  | t, c :: cs =>
    if isLowerAZ c then
      match t.child (charIndex c) with
      | none => false
      | some sub => searchWord sub cs
    else false

/-- `SpellCheckerEngine::removeWordRecursive`.  The C++ function mutates the
node in place and returns "parent should delete me"; here it returns the
updated node together with that Boolean.  At the end of the word the flag is
cleared and the node asks for deletion iff it has no children; on the way
back up, a deleted child slot is nulled and the node itself asks for
deletion iff it is not word-terminal and owns no remaining children. -/
def removeWordRecursive : TrieNode → List Char → TrieNode × Bool
  | t, [] =>
    let cleared := t.setEnd false
    (cleared, noChildren cleared)
  | t, c :: cs =>
    if isLowerAZ c then
      match t.child (charIndex c) with
      | none => (t, false)
      | some sub =>
        let res := removeWordRecursive sub cs
        if res.2 then
          let pruned := t.setChild (charIndex c) none
          if !pruned.isEndOfWord && noChildren pruned then (pruned, true)
          else (pruned, false)
        else (t.setChild (charIndex c) (some res.1), false)
    else (t, false)

/-- Store-level removal: run `removeWordRecursive` from the root and keep the
root whatever the returned Boolean says (as `removeCustomWord` does). -/
def removeWord (t : TrieNode) (w : List Char) : TrieNode :=
  (removeWordRecursive t w).1

/-- The engine state: the two tries owned by `SpellCheckerEngine`. -/
structure Engine : Type where
  dictionaryTrie : TrieNode
  customTrie : TrieNode

/-- A freshly constructed engine: two empty tries. -/
def Engine.empty : Engine := ⟨TrieNode.empty, TrieNode.empty⟩

/-- `SpellCheckerEngine::addCustomWord`: no-op on the empty word, otherwise
normalize and insert into the custom trie. -/
def addCustomWord (e : Engine) (w : List Char) : Engine :=
  if w = [] then e
  else { e with customTrie := insertWord e.customTrie (toLowerCase w) }

/-- `SpellCheckerEngine::removeCustomWord`: no-op on the empty word,
otherwise normalize and remove from the custom trie. -/
def removeCustomWord (e : Engine) (w : List Char) : Engine :=
  if w = [] then e
  else { e with customTrie := removeWord e.customTrie (toLowerCase w) }

/-- `SpellCheckerEngine::isCorrect`: false on the empty word; otherwise
normalize once, consult the custom trie first and short-circuit, then the
dictionary trie. -/
def isCorrect (e : Engine) (w : List Char) : Bool :=
  if w = [] then false
  else
    searchWord e.customTrie (toLowerCase w)
      || searchWord e.dictionaryTrie (toLowerCase w)

/-- `SpellCheckerEngine::bulkInsert`: insert every non-empty word after
normalization. -/
def bulkInsert (t : TrieNode) (ws : List (List Char)) : TrieNode :=
  ws.foldl (fun t w => if w = [] then t else insertWord t (toLowerCase w)) t

/-- `SpellCheckerEngine::loadDictionary` is `bulkInsert` into the dictionary
trie. -/
def loadDictionary (e : Engine) (ws : List (List Char)) : Engine :=
  { e with dictionaryTrie := bulkInsert e.dictionaryTrie ws }

/- ------------------------------------------------------------------ -/
/- The bounded edit-distance suggestion search.                        -/
/- ------------------------------------------------------------------ -/

/-- The loop body of `searchSuggestions` computing `currentRow[1..size]`:
walking the target and the previous row together, carrying the value
`left = currentRow[i-1]` just produced.  `ps` starts as the whole previous
row, so its head is `prevRow[i-1]` and the head of its tail `prevRow[i]`. -/
def buildRow (letter : Char) : List Char → Nat → List Nat → List Nat
  | [], _, _ => []
  | _ :: _, _, [] => []
  | tc :: ts, left, pPrev :: pRest =>
    let pCur := pRest.headD 0
    let v := min (min (left + 1) (pCur + 1))
      (pPrev + (if tc = letter then 0 else 1))
    v :: buildRow letter ts v pRest

/-- One row step of the Levenshtein matrix (lines 222–232 of the engine):
`currentRow[0] = prevRow[0] + 1`, then the standard
insertion/deletion/substitution recurrence. -/
def currentRowOf (target : List Char) (letter : Char) (prevRow : List Nat) :
    List Nat :=
  let h := prevRow.headD 0 + 1
  h :: buildRow letter target h prevRow

/-- `*std::min_element` over a nonempty row (0 as the irrelevant default for
the empty list, which never occurs: rows have `target.length + 1` entries). -/
def listMin : List Nat → Nat
  | [] => 0
  | x :: xs => xs.foldl min x

/-- The present children of a node with their slot indices, in slot order
(the C++ `for i in 0..25: if (node->children[i]) …` loop). -/
def childrenIdx (t : TrieNode) : List (Nat × TrieNode) :=
  (List.range 26).filterMap fun i =>
    match t.child i with
    | none => none
    | some c => some (i, c)


/-- `SpellCheckerEngine::searchSuggestions`: compute the row for this node,
record a hit if the node is word-terminal and the final entry is within the
budget, and recurse into the children only when some row entry is within the
budget (the pruning rule). -/
def searchSuggestions (t : TrieNode) (letter : Char) (target : List Char)
    (prevRow : List Nat) (maxCost : Int) (currentWord : List Char) :
    List (List Char × Nat) :=
  let row := currentRowOf target letter prevRow
  let dist := row.getD target.length 0
  let hits :=
    if (dist : Int) ≤ maxCost ∧ t.isEndOfWord = true then [(currentWord, dist)]
    else []
  let rest :=
    if (listMin row : Int) ≤ maxCost then
      ((childrenIdx t).attach.map fun x =>
        searchSuggestions x.1.2 (charOf x.1.1) target row maxCost
          (currentWord ++ [charOf x.1.1])).flatten
    else []
  hits ++ rest
termination_by t
decreasing_by
  have hmem := x.2
  unfold childrenIdx at hmem
  rw [List.mem_filterMap] at hmem
  obtain ⟨j, _, hmatch⟩ := hmem
  cases hcj : t.child j with
  | none => rw [hcj] at hmatch; simp at hmatch
  | some d =>
    rw [hcj] at hmatch
    simp only [Option.some.injEq] at hmatch
    have h2 : x.1.2 = d := by rw [← hmatch]
    rw [h2]
    cases t with
    | mk ch e =>
      have hmem2 : some d ∈ ch := by
        unfold TrieNode.child TrieNode.children at hcj
        rw [List.getD_eq_getElem?_getD] at hcj
        cases hg : ch[j]? with
        | none => rw [hg] at hcj; simp at hcj
        | some o =>
          rw [hg] at hcj
          simp only [Option.getD_some] at hcj
          subst hcj
          exact List.getElem?_mem hg
      have h1 : sizeOf (some d) < sizeOf ch := List.sizeOf_lt_of_mem hmem2
      simp only [TrieNode.mk.sizeOf_spec]
      simp at h1
      omega

/-- Lexicographic order on words, as `std::string::operator<`. -/
def lexLt : List Char → List Char → Bool
  | [], [] => false
  | [], _ :: _ => true
  | _ :: _, [] => false
  | a :: as, b :: bs =>
    if a < b then true else if b < a then false else lexLt as bs

/-- The (non-strict) total preorder the sorted suggestion list satisfies.
The C++ comparator is its strict part (`a.distance < b.distance`, ties by
`a.word < b.word`); two comparator-equivalent entries have the same distance
and the same word, hence are equal, so the sorted rearrangement is unique
and `std::sort` is faithfully modelled by any sorting algorithm for this
relation. -/
def sugLE (a b : List Char × Nat) : Prop :=
  a.2 < b.2 ∨ (a.2 = b.2 ∧ (lexLt a.1 b.1 = true ∨ a.1 = b.1))

instance : DecidableRel sugLE := fun a b => by
  unfold sugLE; infer_instance

/-- `std::unique` with equality on the word component, after the last kept
entry `a`: drop every entry whose word equals `a`'s word, keep the first
differing entry and continue from it. -/
def dedupFrom (a : List Char × Nat) :
    List (List Char × Nat) → List (List Char × Nat)
  | [] => []
  | b :: rest => if a.1 = b.1 then dedupFrom a rest else b :: dedupFrom b rest

/-- `std::unique` with equality on the word component: keep the first entry
of every run of equal-word entries. -/
def dedupByWord : List (List Char × Nat) → List (List Char × Nat)
  | [] => []
  | a :: rest => a :: dedupFrom a rest

/-- The concatenation of the raw DFS hits: custom trie first, then the
dictionary trie, each starting from the row `0,1,…,n` (lines 77–99). -/
def suggestionsRaw (e : Engine) (target : List Char) (maxD : Int) :
    List (List Char × Nat) :=
  ((childrenIdx e.customTrie).map fun ic =>
      searchSuggestions ic.2 (charOf ic.1) target
        (List.range (target.length + 1)) maxD [charOf ic.1]).flatten ++
  ((childrenIdx e.dictionaryTrie).map fun ic =>
      searchSuggestions ic.2 (charOf ic.1) target
        (List.range (target.length + 1)) maxD [charOf ic.1]).flatten

/-- The combined hit list after the `std::sort` call. -/
def sortedHits (e : Engine) (target : List Char) (maxD : Int) :
    List (List Char × Nat) :=
  List.insertionSort sugLE (suggestionsRaw e target maxD)

/-- `SpellCheckerEngine::getSuggestions`: empty on the empty word; otherwise
normalize, search both tries, sort by distance then word, and deduplicate by
word text. -/
def getSuggestions (e : Engine) (w : List Char) (maxD : Int) :
    List (List Char × Nat) :=
  if w = [] then []
  else dedupByWord (sortedHits e (toLowerCase w) maxD)

/- ------------------------------------------------------------------ -/
/- Structural invariants of the store.                                 -/
/- ------------------------------------------------------------------ -/

/-- A node that may legitimately stay in the trie: word-terminal or owning
at least one child. -/
def goodNode (t : TrieNode) : Bool := t.isEndOfWord || !noChildren t

/-- Every strict descendant of the node is `goodNode` ("no structural
garbage"); the root itself is exempt. -/
def noGarbage : TrieNode → Bool
  | .mk ch _ =>
    ch.attach.all fun x =>
      match x with
      | ⟨none, _⟩ => true
      | ⟨some c, _⟩ => goodNode c && noGarbage c
termination_by t => sizeOf t
decreasing_by
  rename_i hmem
  have h1 : sizeOf (some c) < sizeOf ch := List.sizeOf_lt_of_mem hmem
  simp only [TrieNode.mk.sizeOf_spec]
  simp at h1
  omega

/-- Every node of the tree (root included) has exactly 26 child slots, as
every node the program constructs does. -/
def len26 : TrieNode → Bool
  | .mk ch _ =>
    (ch.length == 26) &&
    ch.attach.all fun x =>
      match x with
      | ⟨none, _⟩ => true
      | ⟨some c, _⟩ => len26 c
termination_by t => sizeOf t
decreasing_by
  rename_i hmem
  have h1 : sizeOf (some c) < sizeOf ch := List.sizeOf_lt_of_mem hmem
  simp only [TrieNode.mk.sizeOf_spec]
  simp at h1
  omega

/-- The structural invariant of a store: well-formed slot lists everywhere
and no garbage node below the root. -/
def trieInv (t : TrieNode) : Bool := len26 t && noGarbage t

/-- The characters of `w` that survive insertion: exactly those in the
handled range `a`–`z`. -/
def azFilter (w : List Char) : List Char := w.filter isLowerAZ

/-- An ASCII letter: `A`–`Z` or `a`–`z`. -/
def isAsciiLetter (c : Char) : Bool :=
  (decide (65 ≤ c.toNat) && decide (c.toNat ≤ 90)) ||
  (decide (97 ≤ c.toNat) && decide (c.toNat ≤ 122))

/-- A single store mutation, as issued by the engine. -/
inductive TrieOp : Type where
  | insert : List Char → TrieOp
  | remove : List Char → TrieOp

/-- Execute one mutation on a store. -/
def applyOp (t : TrieNode) : TrieOp → TrieNode
  | .insert w => insertWord t w
  | .remove w => removeWord t w

/-- Execute a sequence of mutations on a store. -/
def applyOps (t : TrieNode) (ops : List TrieOp) : TrieNode :=
  ops.foldl applyOp t

/-- The true Levenshtein edit distance between two character lists
(Mathlib's `levenshtein` with the unit cost structure). -/
def lev (xs ys : List Char) : Nat :=
  levenshtein Levenshtein.defaultCost xs ys

/-- The intended content of a DP row: entry `j` is the true edit distance
between the reversal of the length-`j` target prefix and `rp`, the reversal
of the path spelled so far.  (Working with reversals matches Mathlib's
`suffixLevenshtein`, which grows lists on the left.) -/
def specRow (target rp : List Char) : List Nat :=
  target.inits.map fun p => lev p.reverse rp

theorem mem_childrenIdx {t : TrieNode} {i : Nat} {c : TrieNode} :
    (i, c) ∈ childrenIdx t ↔ i < 26 ∧ t.child i = some c := by
  unfold childrenIdx
  rw [List.mem_filterMap]
  constructor
  · rintro ⟨j, hj, hmatch⟩
    rw [List.mem_range] at hj
    cases h : t.child j with
    | none => rw [h] at hmatch; simp at hmatch
    | some d =>
      rw [h] at hmatch
      simp only [Option.some.injEq, Prod.mk.injEq] at hmatch
      obtain ⟨rfl, rfl⟩ := hmatch
      exact ⟨hj, h⟩
  · rintro ⟨hi, hc⟩
    exact ⟨i, List.mem_range.mpr hi, by rw [hc]⟩

theorem sizeOf_lt_of_child {t : TrieNode} {i : Nat} {c : TrieNode}
    (h : t.child i = some c) : sizeOf c < sizeOf t := by
  cases t with
  | mk ch e =>
    have hmem : some c ∈ ch := by
      unfold TrieNode.child TrieNode.children at h
      have := List.getD_eq_getElem?_getD ch i none
      rw [this] at h
      cases hg : ch[i]? with
      | none => rw [hg] at h; simp at h
      | some o =>
        rw [hg] at h
        simp only [Option.getD_some] at h
        subst h
        exact List.getElem?_mem hg
    have h1 : sizeOf (some c) < sizeOf ch := List.sizeOf_lt_of_mem hmem
    simp only [TrieNode.mk.sizeOf_spec]
    simp at h1
    omega

theorem sizeOf_lt_of_mem_childrenIdx {t : TrieNode} {p : Nat × TrieNode}
    (h : p ∈ childrenIdx t) : sizeOf p.2 < sizeOf t := by
  obtain ⟨i, c⟩ := p
  exact sizeOf_lt_of_child (mem_childrenIdx.mp h).2

theorem noGarbage_iff {ch : List (Option TrieNode)} {e : Bool} :
    noGarbage (.mk ch e) = true ↔
      ∀ c : TrieNode, some c ∈ ch → goodNode c = true ∧ noGarbage c = true := by
  rw [noGarbage.eq_def]
  rw [List.all_eq_true]
  constructor
  · intro h c hc
    have := h ⟨some c, hc⟩ (List.mem_attach _ _)
    simpa [Bool.and_eq_true] using this
  · rintro h ⟨o, ho⟩ _
    cases o with
    | none => rfl
    | some c => simpa [Bool.and_eq_true] using h c ho

theorem len26_iff {ch : List (Option TrieNode)} {e : Bool} :
    len26 (.mk ch e) = true ↔
      ch.length = 26 ∧ ∀ c : TrieNode, some c ∈ ch → len26 c = true := by
  rw [len26.eq_def]
  rw [Bool.and_eq_true, List.all_eq_true]
  constructor
  · rintro ⟨hlen, h⟩
    refine ⟨by simpa using hlen, fun c hc => ?_⟩
    have := h ⟨some c, hc⟩ (List.mem_attach _ _)
    simpa using this
  · rintro ⟨hlen, h⟩
    refine ⟨by simpa using hlen, ?_⟩
    rintro ⟨o, ho⟩ _
    cases o with
    | none => rfl
    | some c => simpa using h c ho

/- ------------------------------------------------------------------ -/
/- Basic facts about nodes and slots.                                  -/
/- ------------------------------------------------------------------ -/

theorem set_self_of_getElem {α : Type} {l : List α} {i : Nat} {a : α}
    (h : l[i]? = some a) : l.set i a = l := by
  induction l generalizing i with
  | nil => simp at h
  | cons x xs ih =>
    cases i with
    | zero => simp_all
    | succ n =>
      simp only [List.getElem?_cons_succ] at h
      simp [ih h]

@[simp] theorem TrieNode.children_mk (ch : List (Option TrieNode)) (e : Bool) :
    (TrieNode.mk ch e).children = ch := rfl

@[simp] theorem TrieNode.isEndOfWord_mk (ch : List (Option TrieNode)) (e : Bool) :
    (TrieNode.mk ch e).isEndOfWord = e := rfl

theorem TrieNode.child_def (t : TrieNode) (i : Nat) :
    t.child i = t.children.getD i none := by cases t; rfl

@[simp] theorem TrieNode.setChild_mk (ch : List (Option TrieNode)) (e : Bool)
    (i : Nat) (o : Option TrieNode) :
    (TrieNode.mk ch e).setChild i o = .mk (ch.set i o) e := rfl

@[simp] theorem TrieNode.setEnd_mk (ch : List (Option TrieNode)) (e b : Bool) :
    (TrieNode.mk ch e).setEnd b = .mk ch b := rfl

theorem TrieNode.isEnd_setChild (t : TrieNode) (i : Nat) (o : Option TrieNode) :
    (t.setChild i o).isEndOfWord = t.isEndOfWord := by cases t; rfl

theorem TrieNode.children_setChild (t : TrieNode) (i : Nat) (o : Option TrieNode) :
    (t.setChild i o).children = t.children.set i o := by cases t; rfl

theorem TrieNode.isEnd_setEnd (t : TrieNode) (b : Bool) :
    (t.setEnd b).isEndOfWord = b := by cases t; rfl

theorem TrieNode.children_setEnd (t : TrieNode) (b : Bool) :
    (t.setEnd b).children = t.children := by cases t; rfl

theorem TrieNode.child_setEnd (t : TrieNode) (b : Bool) (i : Nat) :
    (t.setEnd b).child i = t.child i := by cases t; rfl

theorem TrieNode.setEnd_self {t : TrieNode} {b : Bool}
    (h : t.isEndOfWord = b) : t.setEnd b = t := by
  cases t; cases h; rfl

theorem TrieNode.child_setChild_self {t : TrieNode} {i : Nat}
    {o : Option TrieNode} (h : i < t.children.length) :
    (t.setChild i o).child i = o := by
  cases t with
  | mk ch e =>
    simp only [TrieNode.setChild_mk, TrieNode.child_def, TrieNode.children_mk]
    rw [List.getD_eq_getElem?_getD, List.getElem?_set_self (by simpa using h)]
    rfl

theorem TrieNode.child_setChild_ne {t : TrieNode} {i j : Nat}
    {o : Option TrieNode} (h : i ≠ j) :
    (t.setChild i o).child j = t.child j := by
  cases t with
  | mk ch e =>
    simp only [TrieNode.setChild_mk, TrieNode.child_def, TrieNode.children_mk]
    rw [List.getD_eq_getElem?_getD, List.getD_eq_getElem?_getD,
      List.getElem?_set_ne h]

theorem TrieNode.setChild_eq_self {t : TrieNode} {i : Nat}
    {o : Option TrieNode} (h : t.child i = o) : t.setChild i o = t := by
  cases t with
  | mk ch e =>
    rw [TrieNode.child_def] at h
    simp only [TrieNode.children_mk] at h
    simp only [TrieNode.setChild_mk]
    by_cases hi : i < ch.length
    · have hg : ch[i]? = some o := by
        rw [List.getD_eq_getElem?_getD] at h
        cases hx : ch[i]? with
        | none =>
          exact absurd (List.getElem?_eq_none_iff.mp hx) (by omega)
        | some y =>
          rw [hx] at h
          simp only [Option.getD_some] at h
          rw [h]
      rw [set_self_of_getElem hg]
    · rw [List.set_eq_of_length_le (by omega)]

theorem TrieNode.setChild_setChild (t : TrieNode) (i : Nat)
    (o o₂ : Option TrieNode) :
    (t.setChild i o).setChild i o₂ = t.setChild i o₂ := by
  cases t; simp [List.set_set]

theorem mem_of_child {t : TrieNode} {i : Nat} {c : TrieNode}
    (h : t.child i = some c) : some c ∈ t.children := by
  rw [TrieNode.child_def, List.getD_eq_getElem?_getD] at h
  cases hg : t.children[i]? with
  | none => rw [hg] at h; simp at h
  | some o =>
    rw [hg] at h
    simp only [Option.getD_some] at h
    subst h
    exact List.getElem?_mem hg

theorem len26_length {t : TrieNode} (h : len26 t = true) :
    t.children.length = 26 := by
  cases t with
  | mk ch e => exact (len26_iff.mp h).1

theorem len26_child {t : TrieNode} {i : Nat} {c : TrieNode}
    (ht : len26 t = true) (h : t.child i = some c) : len26 c = true := by
  cases t with
  | mk ch e => exact (len26_iff.mp ht).2 c (mem_of_child h)

theorem noGarbage_child {t : TrieNode} {i : Nat} {c : TrieNode}
    (ht : noGarbage t = true) (h : t.child i = some c) :
    goodNode c = true ∧ noGarbage c = true := by
  cases t with
  | mk ch e => exact noGarbage_iff.mp ht c (mem_of_child h)

theorem len26_empty : len26 TrieNode.empty = true := by
  rw [TrieNode.empty, len26_iff]
  refine ⟨by simp, fun c hc => ?_⟩
  have := List.eq_of_mem_replicate hc
  simp at this

theorem noGarbage_empty : noGarbage TrieNode.empty = true := by
  rw [TrieNode.empty, noGarbage_iff]
  intro c hc
  have := List.eq_of_mem_replicate hc
  simp at this

theorem trieInv_empty : trieInv TrieNode.empty = true := by
  rw [trieInv, Bool.and_eq_true]
  exact ⟨len26_empty, noGarbage_empty⟩

theorem isLowerAZ_charIndex {c : Char} (h : isLowerAZ c = true) :
    charIndex c < 26 := by
  rw [isLowerAZ, Bool.and_eq_true, decide_eq_true_eq, decide_eq_true_eq] at h
  rw [charIndex]
  omega

/- ------------------------------------------------------------------ -/
/- Insertion: membership and idempotence.                              -/
/- ------------------------------------------------------------------ -/


theorem searchWord_insertWord_filter :
    ∀ (w : List Char) (t : TrieNode), len26 t = true →
      searchWord (insertWord t w) (azFilter w) = true
  | [], t, _ => by
    rw [azFilter, insertWord]
    simp [searchWord, TrieNode.isEnd_setEnd]
  | c :: cs, t, ht => by
    rw [azFilter, List.filter]
    cases hc : isLowerAZ c with
    | false =>
      rw [insertWord, if_neg (by simp [hc])]
      exact searchWord_insertWord_filter cs t ht
    | true =>
      rw [insertWord, if_pos hc]
      rw [searchWord, if_pos hc]
      rw [TrieNode.child_setChild_self
        (by rw [len26_length ht]; exact isLowerAZ_charIndex hc)]
      have hsub : len26 ((t.child (charIndex c)).getD TrieNode.empty) = true := by
        cases hx : t.child (charIndex c) with
        | none => simpa using len26_empty
        | some sub => simpa using len26_child ht hx
      exact searchWord_insertWord_filter cs _ hsub

theorem insertWord_idem : ∀ (w : List Char) (t : TrieNode),
    insertWord (insertWord t w) w = insertWord t w
  | [], t => by
    rw [insertWord, insertWord]
    cases t; rfl
  | c :: cs, t => by
    cases hc : isLowerAZ c with
    | false =>
      rw [insertWord, if_neg (by simp [hc]), insertWord, if_neg (by simp [hc])]
      exact insertWord_idem cs t
    | true =>
      rw [insertWord, if_pos hc]
      by_cases hi : charIndex c < t.children.length
      · rw [insertWord, if_pos hc, TrieNode.child_setChild_self hi]
        simp only [Option.getD_some]
        rw [insertWord_idem cs _, TrieNode.setChild_setChild]
      · have hset : ∀ o : Option TrieNode, t.setChild (charIndex c) o = t := by
          intro o
          cases t with
          | mk ch e =>
            simp only [TrieNode.setChild_mk]
            rw [List.set_eq_of_length_le (by simpa using Nat.le_of_not_lt hi)]
        have hins : insertWord t (c :: cs) = t := by
          rw [insertWord, if_pos hc]
          exact hset _
        rw [hins]
        exact hset _

/- ------------------------------------------------------------------ -/
/- Removal: self-deletion, frame, absence, invariant preservation.     -/
/- ------------------------------------------------------------------ -/

theorem child_some_lt {t : TrieNode} {i : Nat} {c : TrieNode}
    (h : t.child i = some c) : i < t.children.length := by
  by_contra hi
  rw [TrieNode.child_def, List.getD_eq_getElem?_getD,
    List.getElem?_eq_none (by omega)] at h
  simp at h

theorem noChildren_child {t : TrieNode} (h : noChildren t = true) (i : Nat) :
    t.child i = none := by
  rw [noChildren, List.all_eq_true] at h
  rw [TrieNode.child_def, List.getD_eq_getElem?_getD]
  cases hg : t.children[i]? with
  | none => rfl
  | some o =>
    have := h o (List.getElem?_mem hg)
    cases o with
    | none => rfl
    | some c => simp at this

theorem noChildren_setChild_some {t : TrieNode} {i : Nat} {c : TrieNode}
    (h : i < t.children.length) :
    noChildren (t.setChild i (some c)) = false := by
  cases t with
  | mk ch e =>
    simp only [TrieNode.setChild_mk, noChildren, TrieNode.children_mk]
    rw [List.all_eq_false]
    have hg : (ch.set i (some c))[i]? = some (some c) :=
      List.getElem?_set_self (by simpa using h)
    exact ⟨some c, List.getElem?_mem hg, by simp⟩

theorem mem_set_cases {α : Type} {l : List α} {i : Nat} {a b : α}
    (h : a ∈ l.set i b) : a ∈ l ∨ a = b := by
  rcases List.mem_or_eq_of_mem_set h with h1 | h1
  · exact Or.inl h1
  · exact Or.inr h1

theorem removeRec_nil (t : TrieNode) :
    removeWordRecursive t [] = (t.setEnd false, noChildren (t.setEnd false)) := by
  rw [removeWordRecursive]

theorem removeRec_cons_invalid {c : Char} (hc : isLowerAZ c = false)
    (t : TrieNode) (cs : List Char) :
    removeWordRecursive t (c :: cs) = (t, false) := by
  rw [removeWordRecursive]
  simp [hc]

theorem removeRec_cons_none {c : Char} {t : TrieNode}
    (hc : isLowerAZ c = true) (hnone : t.child (charIndex c) = none)
    (cs : List Char) : removeWordRecursive t (c :: cs) = (t, false) := by
  rw [removeWordRecursive]
  simp [hc, hnone]

theorem removeRec_cons_del {c : Char} {t sub : TrieNode} {cs : List Char}
    (hc : isLowerAZ c = true) (hsub : t.child (charIndex c) = some sub)
    (hr : (removeWordRecursive sub cs).2 = true) :
    removeWordRecursive t (c :: cs) =
      (t.setChild (charIndex c) none,
        !(t.setChild (charIndex c) none).isEndOfWord &&
          noChildren (t.setChild (charIndex c) none)) := by
  rw [removeWordRecursive]
  simp only [hc, if_true, hsub, hr]
  cases hcond : (!(t.setChild (charIndex c) none).isEndOfWord &&
      noChildren (t.setChild (charIndex c) none)) <;> simp [hcond]

theorem removeRec_cons_keep {c : Char} {t sub : TrieNode} {cs : List Char}
    (hc : isLowerAZ c = true) (hsub : t.child (charIndex c) = some sub)
    (hr : (removeWordRecursive sub cs).2 = false) :
    removeWordRecursive t (c :: cs) =
      (t.setChild (charIndex c) (some (removeWordRecursive sub cs).1), false) := by
  rw [removeWordRecursive]
  simp only [hc, if_true, hsub, hr]
  simp

theorem searchWord_nil (t : TrieNode) : searchWord t [] = t.isEndOfWord := by
  rw [searchWord]

theorem searchWord_cons_invalid {c : Char} (hc : isLowerAZ c = false)
    (t : TrieNode) (cs : List Char) : searchWord t (c :: cs) = false := by
  rw [searchWord]
  simp [hc]

theorem searchWord_cons_valid {c : Char} (hc : isLowerAZ c = true)
    (t : TrieNode) (cs : List Char) :
    searchWord t (c :: cs) =
      (match t.child (charIndex c) with
        | none => false
        | some s => searchWord s cs) := by
  rw [searchWord, if_pos hc]

theorem searchWord_cons_some {c : Char} {t s : TrieNode}
    (hc : isLowerAZ c = true) (hsub : t.child (charIndex c) = some s)
    (cs : List Char) : searchWord t (c :: cs) = searchWord s cs := by
  rw [searchWord_cons_valid hc, hsub]

theorem searchWord_cons_none {c : Char} {t : TrieNode}
    (hc : isLowerAZ c = true) (hnone : t.child (charIndex c) = none)
    (cs : List Char) : searchWord t (c :: cs) = false := by
  rw [searchWord_cons_valid hc, hnone]

/-- A node for which `removeWordRecursive` answered "delete me" is
word-terminal-free and childless. -/
theorem removeRec_true_spec : ∀ (w : List Char) (t : TrieNode),
    (removeWordRecursive t w).2 = true →
      noChildren (removeWordRecursive t w).1 = true ∧
      (removeWordRecursive t w).1.isEndOfWord = false
  | [], t, h => by
    rw [removeRec_nil] at h ⊢
    exact ⟨h, TrieNode.isEnd_setEnd t false⟩
  | c :: cs, t, h => by
    cases hc : isLowerAZ c with
    | false => rw [removeRec_cons_invalid hc] at h; simp at h
    | true =>
      cases hchild : t.child (charIndex c) with
      | none => rw [removeRec_cons_none hc hchild] at h; simp at h
      | some sub =>
        cases hr : (removeWordRecursive sub cs).2 with
        | false => rw [removeRec_cons_keep hc hchild hr] at h; simp at h
        | true =>
          rw [removeRec_cons_del hc hchild hr] at h ⊢
          simp only [Bool.and_eq_true, Bool.not_eq_true'] at h
          exact ⟨h.2, h.1⟩

theorem searchWord_of_dead {t : TrieNode} (h1 : noChildren t = true)
    (h2 : t.isEndOfWord = false) : ∀ v, searchWord t v = false
  | [] => by rw [searchWord_nil]; exact h2
  | c :: cs => by
    cases hc : isLowerAZ c with
    | false => exact searchWord_cons_invalid hc t cs
    | true => exact searchWord_cons_none hc (noChildren_child h1 _) cs

theorem charIndex_inj {a b : Char} (ha : isLowerAZ a = true)
    (hb : isLowerAZ b = true) (h : charIndex a = charIndex b) : a = b := by
  rw [isLowerAZ, Bool.and_eq_true, decide_eq_true_eq, decide_eq_true_eq] at ha hb
  rw [charIndex, charIndex] at h
  have hn : a.toNat = b.toNat := by omega
  calc a = Char.ofNat a.toNat := (Char.ofNat_toNat a).symm
    _ = Char.ofNat b.toNat := by rw [hn]
    _ = b := Char.ofNat_toNat b

theorem searchWord_setEnd (t : TrieNode) (b : Bool) (c : Char) (cs : List Char) :
    searchWord (t.setEnd b) (c :: cs) = searchWord t (c :: cs) := by
  rw [searchWord, searchWord, TrieNode.child_setEnd]

/-- Updating the slot travelled by the removal leaves every word that is not
the removed one intact, provided the new slot content agrees with the old
subtree on every continuation other than the removed suffix. -/
theorem searchWord_update {t sub : TrieNode} {c : Char} {cs : List Char}
    (hc : isLowerAZ c = true) (hchild : t.child (charIndex c) = some sub)
    (o : Option TrieNode) (v : List Char) (hv : v ≠ c :: cs)
    (hrepl : ∀ cs₂, cs₂ ≠ cs →
      (match o with | none => false | some s => searchWord s cs₂) =
        searchWord sub cs₂) :
    searchWord (t.setChild (charIndex c) o) v = searchWord t v := by
  cases v with
  | nil => rw [searchWord_nil, searchWord_nil, TrieNode.isEnd_setChild]
  | cons c₂ cs₂ =>
    cases hc₂ : isLowerAZ c₂ with
    | false => rw [searchWord_cons_invalid hc₂, searchWord_cons_invalid hc₂]
    | true =>
      by_cases hij : charIndex c₂ = charIndex c
      · have hcc : c₂ = c := charIndex_inj hc₂ hc hij
        subst hcc
        have hcs : cs₂ ≠ cs := fun h => hv (by rw [h])
        rw [searchWord_cons_valid hc₂, searchWord_cons_valid hc₂,
          TrieNode.child_setChild_self (child_some_lt hchild), hchild]
        exact hrepl cs₂ hcs
      · rw [searchWord_cons_valid hc₂, searchWord_cons_valid hc₂,
          TrieNode.child_setChild_ne (fun h => hij h.symm)]

/-- Removing `w` never changes the membership of any word `v ≠ w`. -/
theorem removeRec_frame : ∀ (w : List Char) (t : TrieNode) (v : List Char),
    v ≠ w → searchWord (removeWordRecursive t w).1 v = searchWord t v
  | [], t, v, hv => by
    rw [removeRec_nil]
    cases v with
    | nil => exact absurd rfl hv
    | cons c cs => exact searchWord_setEnd t false c cs
  | c :: cs, t, v, hv => by
    cases hc : isLowerAZ c with
    | false => rw [removeRec_cons_invalid hc]
    | true =>
      cases hchild : t.child (charIndex c) with
      | none => rw [removeRec_cons_none hc hchild]
      | some sub =>
        cases hr : (removeWordRecursive sub cs).2 with
        | true =>
          rw [removeRec_cons_del hc hchild hr]
          apply searchWord_update hc hchild none v hv
          intro cs₂ hcs
          have hdead := removeRec_true_spec cs sub hr
          rw [← removeRec_frame cs sub cs₂ hcs,
            searchWord_of_dead hdead.1 hdead.2 cs₂]
        | false =>
          rw [removeRec_cons_keep hc hchild hr]
          apply searchWord_update hc hchild _ v hv
          intro cs₂ hcs
          exact removeRec_frame cs sub cs₂ hcs

/-- After removal, the removed word itself is never contained. -/
theorem searchWord_removeWord_self : ∀ (w : List Char) (t : TrieNode),
    searchWord (removeWord t w) w = false
  | [], t => by
    rw [removeWord, removeRec_nil, searchWord_nil]
    exact TrieNode.isEnd_setEnd t false
  | c :: cs, t => by
    rw [removeWord]
    cases hc : isLowerAZ c with
    | false => rw [removeRec_cons_invalid hc]; exact searchWord_cons_invalid hc t cs
    | true =>
      cases hchild : t.child (charIndex c) with
      | none =>
        rw [removeRec_cons_none hc hchild]
        exact searchWord_cons_none hc hchild cs
      | some sub =>
        cases hr : (removeWordRecursive sub cs).2 with
        | true =>
          rw [removeRec_cons_del hc hchild hr]
          rw [searchWord_cons_valid hc,
            TrieNode.child_setChild_self (child_some_lt hchild)]
        | false =>
          rw [removeRec_cons_keep hc hchild hr]
          rw [searchWord_cons_valid hc,
            TrieNode.child_setChild_self (child_some_lt hchild)]
          exact searchWord_removeWord_self cs sub

/-- Removing an absent word changes nothing at all (needs the structural
invariant: a reachable non-root node that is neither terminal nor a parent
cannot exist, so the bottom-up deletion never fires). -/
theorem removeRec_absent : ∀ (w : List Char) (t : TrieNode),
    noGarbage t = true → searchWord t w = false →
      (removeWordRecursive t w).1 = t
  | [], t, _, hs => by
    rw [removeRec_nil]
    rw [searchWord_nil] at hs
    exact TrieNode.setEnd_self hs
  | c :: cs, t, hg, hs => by
    cases hc : isLowerAZ c with
    | false => rw [removeRec_cons_invalid hc]
    | true =>
      cases hchild : t.child (charIndex c) with
      | none => rw [removeRec_cons_none hc hchild]
      | some sub =>
        have hs2 : searchWord sub cs = false := by
          rw [searchWord_cons_some hc hchild cs] at hs; exact hs
        have hgsub := noGarbage_child hg hchild
        have hres1 : (removeWordRecursive sub cs).1 = sub :=
          removeRec_absent cs sub hgsub.2 hs2
        have hr : (removeWordRecursive sub cs).2 = false := by
          cases hr : (removeWordRecursive sub cs).2 with
          | false => rfl
          | true =>
            have hdead := removeRec_true_spec cs sub hr
            rw [hres1] at hdead
            have hgood := hgsub.1
            rw [goodNode, hdead.2, hdead.1] at hgood
            simp at hgood
        rw [removeRec_cons_keep hc hchild hr, hres1]
        exact TrieNode.setChild_eq_self hchild

/- ------------------------------------------------------------------ -/
/- Invariant preservation.                                             -/
/- ------------------------------------------------------------------ -/

theorem len26_setEnd {t : TrieNode} {b : Bool} (h : len26 t = true) :
    len26 (t.setEnd b) = true := by
  cases t with
  | mk ch e =>
    rw [TrieNode.setEnd_mk, len26_iff]
    exact len26_iff.mp h

theorem noGarbage_setEnd {t : TrieNode} {b : Bool} (h : noGarbage t = true) :
    noGarbage (t.setEnd b) = true := by
  cases t with
  | mk ch e =>
    rw [TrieNode.setEnd_mk, noGarbage_iff]
    exact noGarbage_iff.mp h

theorem len26_setChild_some {t : TrieNode} {i : Nat} {c : TrieNode}
    (ht : len26 t = true) (hc : len26 c = true) :
    len26 (t.setChild i (some c)) = true := by
  cases t with
  | mk ch e =>
    rw [TrieNode.setChild_mk, len26_iff]
    rw [len26_iff] at ht
    refine ⟨by rw [List.length_set]; exact ht.1, fun d hd => ?_⟩
    rcases mem_set_cases hd with h1 | h1
    · exact ht.2 d h1
    · rw [Option.some.injEq] at h1
      rw [h1]
      exact hc

theorem len26_setChild_none {t : TrieNode} {i : Nat}
    (ht : len26 t = true) : len26 (t.setChild i none) = true := by
  cases t with
  | mk ch e =>
    rw [TrieNode.setChild_mk, len26_iff]
    rw [len26_iff] at ht
    refine ⟨by rw [List.length_set]; exact ht.1, fun d hd => ?_⟩
    rcases mem_set_cases hd with h1 | h1
    · exact ht.2 d h1
    · simp at h1

theorem noGarbage_setChild_none {t : TrieNode} {i : Nat}
    (ht : noGarbage t = true) : noGarbage (t.setChild i none) = true := by
  cases t with
  | mk ch e =>
    rw [TrieNode.setChild_mk, noGarbage_iff]
    intro d hd
    rcases mem_set_cases hd with h1 | h1
    · exact noGarbage_iff.mp ht d h1
    · simp at h1

theorem noGarbage_setChild_some {t : TrieNode} {i : Nat} {c : TrieNode}
    (ht : noGarbage t = true) (hg : goodNode c = true)
    (hng : noGarbage c = true) :
    noGarbage (t.setChild i (some c)) = true := by
  cases t with
  | mk ch e =>
    rw [TrieNode.setChild_mk, noGarbage_iff]
    intro d hd
    rcases mem_set_cases hd with h1 | h1
    · exact noGarbage_iff.mp ht d h1
    · rw [Option.some.injEq] at h1
      rw [h1]
      exact ⟨hg, hng⟩

theorem len26_sub_of_child {t : TrieNode} (c : Char)
    (h : len26 t = true) :
    len26 ((t.child (charIndex c)).getD TrieNode.empty) = true := by
  cases hx : t.child (charIndex c) with
  | none => simpa using len26_empty
  | some sub => simpa using len26_child h hx

theorem noGarbage_sub_of_child {t : TrieNode} (c : Char)
    (h : noGarbage t = true) :
    noGarbage ((t.child (charIndex c)).getD TrieNode.empty) = true := by
  cases hx : t.child (charIndex c) with
  | none => simpa using noGarbage_empty
  | some sub => simpa using (noGarbage_child h hx).2

theorem len26_insertWord : ∀ (w : List Char) (t : TrieNode),
    len26 t = true → len26 (insertWord t w) = true
  | [], t, h => by
    rw [insertWord]
    exact len26_setEnd h
  | c :: cs, t, h => by
    cases hc : isLowerAZ c with
    | false =>
      rw [insertWord, if_neg (by simp [hc])]
      exact len26_insertWord cs t h
    | true =>
      rw [insertWord, if_pos hc]
      exact len26_setChild_some h
        (len26_insertWord cs _ (len26_sub_of_child c h))

theorem goodNode_insertWord : ∀ (w : List Char) (t : TrieNode),
    len26 t = true → goodNode (insertWord t w) = true
  | [], t, _ => by
    rw [insertWord, goodNode, TrieNode.isEnd_setEnd]
    rfl
  | c :: cs, t, h => by
    cases hc : isLowerAZ c with
    | false =>
      rw [insertWord, if_neg (by simp [hc])]
      exact goodNode_insertWord cs t h
    | true =>
      rw [insertWord, if_pos hc]
      have h2 : noChildren (t.setChild (charIndex c)
          (some (insertWord ((t.child (charIndex c)).getD TrieNode.empty) cs)))
          = false :=
        noChildren_setChild_some
          (by rw [len26_length h]; exact isLowerAZ_charIndex hc)
      show goodNode (t.setChild (charIndex c)
        (some (insertWord ((t.child (charIndex c)).getD TrieNode.empty) cs)))
        = true
      rw [goodNode, h2]
      simp

theorem noGarbage_insertWord : ∀ (w : List Char) (t : TrieNode),
    len26 t = true → noGarbage t = true → noGarbage (insertWord t w) = true
  | [], t, _, hg => by
    rw [insertWord]
    exact noGarbage_setEnd hg
  | c :: cs, t, hl, hg => by
    cases hc : isLowerAZ c with
    | false =>
      rw [insertWord, if_neg (by simp [hc])]
      exact noGarbage_insertWord cs t hl hg
    | true =>
      rw [insertWord, if_pos hc]
      exact noGarbage_setChild_some hg
        (goodNode_insertWord cs _ (len26_sub_of_child c hl))
        (noGarbage_insertWord cs _ (len26_sub_of_child c hl)
          (noGarbage_sub_of_child c hg))

theorem len26_removeRec : ∀ (w : List Char) (t : TrieNode),
    len26 t = true → len26 ((removeWordRecursive t w).1) = true
  | [], t, h => by
    rw [removeRec_nil]
    exact len26_setEnd h
  | c :: cs, t, h => by
    cases hc : isLowerAZ c with
    | false => rw [removeRec_cons_invalid hc]; exact h
    | true =>
      cases hchild : t.child (charIndex c) with
      | none => rw [removeRec_cons_none hc hchild]; exact h
      | some sub =>
        cases hr : (removeWordRecursive sub cs).2 with
        | true =>
          rw [removeRec_cons_del hc hchild hr]
          exact len26_setChild_none h
        | false =>
          rw [removeRec_cons_keep hc hchild hr]
          exact len26_setChild_some h
            (len26_removeRec cs sub (len26_child h hchild))

theorem noGarbage_removeRec : ∀ (w : List Char) (t : TrieNode),
    noGarbage t = true →
      noGarbage ((removeWordRecursive t w).1) = true ∧
      ((removeWordRecursive t w).2 = false → goodNode t = true →
        goodNode ((removeWordRecursive t w).1) = true)
  | [], t, hg => by
    rw [removeRec_nil]
    refine ⟨noGarbage_setEnd hg, fun h2 _ => ?_⟩
    have h2b : noChildren (t.setEnd false) = false := h2
    show goodNode (t.setEnd false) = true
    rw [goodNode, h2b]
    simp
  | c :: cs, t, hg => by
    cases hc : isLowerAZ c with
    | false => rw [removeRec_cons_invalid hc]; exact ⟨hg, fun _ h => h⟩
    | true =>
      cases hchild : t.child (charIndex c) with
      | none => rw [removeRec_cons_none hc hchild]; exact ⟨hg, fun _ h => h⟩
      | some sub =>
        have hsub := noGarbage_child hg hchild
        cases hr : (removeWordRecursive sub cs).2 with
        | true =>
          rw [removeRec_cons_del hc hchild hr]
          refine ⟨noGarbage_setChild_none hg, fun h2 _ => ?_⟩
          have h2b : (!(t.setChild (charIndex c) none).isEndOfWord &&
              noChildren (t.setChild (charIndex c) none)) = false := h2
          show goodNode (t.setChild (charIndex c) none) = true
          rw [Bool.and_eq_false_iff] at h2b
          rw [goodNode]
          rcases h2b with h2b | h2b
          · rw [Bool.not_eq_false'] at h2b
            rw [h2b]
            simp
          · rw [h2b]
            simp
        | false =>
          rw [removeRec_cons_keep hc hchild hr]
          have IH := noGarbage_removeRec cs sub hsub.2
          have hgood1 : goodNode ((removeWordRecursive sub cs).1) = true :=
            IH.2 hr hsub.1
          refine ⟨noGarbage_setChild_some hg hgood1 IH.1, fun _ _ => ?_⟩
          show goodNode (t.setChild (charIndex c)
            (some (removeWordRecursive sub cs).1)) = true
          rw [goodNode, noChildren_setChild_some (child_some_lt hchild)]
          simp

theorem trieInv_eq_true {t : TrieNode} :
    trieInv t = true ↔ len26 t = true ∧ noGarbage t = true := by
  rw [trieInv, Bool.and_eq_true]

theorem trieInv_insertWord {t : TrieNode} (w : List Char)
    (h : trieInv t = true) : trieInv (insertWord t w) = true := by
  rw [trieInv_eq_true] at h ⊢
  exact ⟨len26_insertWord w t h.1, noGarbage_insertWord w t h.1 h.2⟩

theorem trieInv_removeWord {t : TrieNode} (w : List Char)
    (h : trieInv t = true) : trieInv (removeWord t w) = true := by
  rw [trieInv_eq_true] at h ⊢
  exact ⟨len26_removeRec w t h.1, (noGarbage_removeRec w t h.2).1⟩

/- ------------------------------------------------------------------ -/
/- Character-level facts about normalization.                          -/
/- ------------------------------------------------------------------ -/


theorem toNat_charOfNat {n : Nat} (h : n < 128) : (Char.ofNat n).toNat = n := by
  rw [Char.ofNat]
  rw [dif_pos (by omega)]
  simp [Char.toNat, Char.ofNatAux, UInt32.toNat, BitVec.toNat_ofNatLt]

theorem isLowerAZ_toLowerChar {c : Char} (h : isAsciiLetter c = true) :
    isLowerAZ (toLowerChar c) = true := by
  rw [isAsciiLetter, Bool.or_eq_true, Bool.and_eq_true, Bool.and_eq_true,
    decide_eq_true_eq, decide_eq_true_eq, decide_eq_true_eq,
    decide_eq_true_eq] at h
  rw [toLowerChar]
  by_cases hcase : 65 ≤ c.toNat ∧ c.toNat ≤ 90
  · rw [if_pos hcase, isLowerAZ]
    have he : (Char.ofNat (c.toNat + 32)).toNat = c.toNat + 32 :=
      toNat_charOfNat (by omega)
    rw [he]
    simp only [Bool.and_eq_true, decide_eq_true_eq]
    omega
  · rw [if_neg hcase, isLowerAZ]
    simp only [Bool.and_eq_true, decide_eq_true_eq]
    omega

theorem toLowerChar_of_lower {c : Char} (h : isLowerAZ c = true) :
    toLowerChar c = c := by
  rw [isLowerAZ, Bool.and_eq_true, decide_eq_true_eq, decide_eq_true_eq] at h
  rw [toLowerChar, if_neg (by omega)]

theorem allLower_toLowerCase {w : List Char}
    (h : ∀ c ∈ w, isAsciiLetter c = true) :
    ∀ c ∈ toLowerCase w, isLowerAZ c = true := by
  intro c hc
  rw [toLowerCase, List.mem_map] at hc
  rcases hc with ⟨d, hd, rfl⟩
  exact isLowerAZ_toLowerChar (h d hd)

theorem azFilter_of_lower {v : List Char}
    (h : ∀ c ∈ v, isLowerAZ c = true) : azFilter v = v := by
  rw [azFilter, List.filter_eq_self]
  exact h

theorem toLowerCase_of_lower {v : List Char}
    (h : ∀ c ∈ v, isLowerAZ c = true) : toLowerCase v = v := by
  rw [toLowerCase]
  calc v.map toLowerChar = v.map id := by
        apply List.map_congr_left
        exact fun c hc => toLowerChar_of_lower (h c hc)
    _ = v := List.map_id v

/-- A word containing a character outside `a`–`z` is never contained,
whatever the store. -/
theorem searchWord_invalidChar : ∀ (v : List Char) (t : TrieNode),
    (∃ c ∈ v, isLowerAZ c = false) → searchWord t v = false
  | [], _, h => by
    rcases h with ⟨c, hc, _⟩
    simp at hc
  | c :: cs, t, h => by
    cases hc2 : isLowerAZ c with
    | false => exact searchWord_cons_invalid hc2 t cs
    | true =>
      have h3 : ∃ d ∈ cs, isLowerAZ d = false := by
        rcases h with ⟨d, hd, hdf⟩
        cases List.mem_cons.mp hd with
        | inl heq => rw [heq] at hdf; rw [hdf] at hc2; cases hc2
        | inr hmem => exact ⟨d, hmem, hdf⟩
      cases hchild : t.child (charIndex c) with
      | none => exact searchWord_cons_none hc2 hchild cs
      | some s =>
        rw [searchWord_cons_some hc2 hchild cs]
        exact searchWord_invalidChar cs s h3

theorem trieInv_applyOps : ∀ (ops : List TrieOp) (t : TrieNode),
    trieInv t = true → trieInv (applyOps t ops) = true
  | [], _, h => h
  | op :: ops, t, h => by
    rw [applyOps, List.foldl_cons]
    apply trieInv_applyOps ops
    cases op with
    | insert w => exact trieInv_insertWord w h
    | remove w => exact trieInv_removeWord w h

/- ------------------------------------------------------------------ -/
/- Claim theorems: store and facade.                                   -/
/- ------------------------------------------------------------------ -/

/-- Claim C7: for every word built only from ASCII letters, after inserting
it the store contains it, and contains every case variant of it (both
`insert` and `contains` lower-case their input first); and a word stored
only as a proper prefix of another stored word is not contained: inserting
only "cats" leaves "cat" not contained. -/
theorem claim_C7_insert_contains :
    (∀ (t : TrieNode) (w u : List Char),
      trieInv t = true →
      (∀ c ∈ w, isAsciiLetter c = true) →
      toLowerCase u = toLowerCase w →
      searchWord (insertWord t (toLowerCase w)) (toLowerCase u) = true) ∧
    searchWord (insertWord TrieNode.empty (toLowerCase ['c','a','t','s']))
      (toLowerCase ['c','a','t']) = false := by
  constructor
  · intro t w u hinv hw hu
    rw [hu]
    have h := searchWord_insertWord_filter (toLowerCase w) t
      (trieInv_eq_true.mp hinv).1
    rwa [azFilter_of_lower (allLower_toLowerCase hw)] at h
  · decide

/-- Witness for C7 at a concrete input: inserting "Cat" makes the case
variant "cAT" contained. -/
theorem claim_C7_witness :
    searchWord (insertWord TrieNode.empty (toLowerCase ['C','a','t']))
      (toLowerCase ['c','A','T']) = true :=
  claim_C7_insert_contains.1 TrieNode.empty ['C','a','t'] ['c','A','T']
    trieInv_empty (by decide) (by decide)

/-- Claim C9: insertion is idempotent, for every store state and word:
inserting twice yields exactly the same store as inserting once. -/
theorem claim_C9_insert_idempotent : ∀ (t : TrieNode) (w : List Char),
    insertWord (insertWord t w) w = insertWord t w :=
  fun t w => insertWord_idem w t

/-- Claim C8: removal is atomic on absence: on a store satisfying the
structural invariant, removing a word that is not contained (missing path,
non-letter character, or terminal flag not set) leaves the store completely
unchanged. -/
theorem claim_C8_remove_absent : ∀ (t : TrieNode) (w : List Char),
    trieInv t = true → searchWord t w = false → removeWord t w = t :=
  fun t w h hs => removeRec_absent w t (trieInv_eq_true.mp h).2 hs

/-- Witness for C8 at a concrete input: removing the absent proper prefix
"a" from the store holding only "ab" changes nothing. -/
theorem claim_C8_witness :
    removeWord (insertWord TrieNode.empty ['a','b']) ['a'] =
      insertWord TrieNode.empty ['a','b'] :=
  claim_C8_remove_absent (insertWord TrieNode.empty ['a','b']) ['a']
    (trieInv_insertWord ['a','b'] trieInv_empty) (by decide)

/-- Counterexample to claim C3 as stated: "CAT" and "cat" are distinct words
built only from ASCII letters, but after inserting both (the store
lower-cases on insert, so they share one path) and removing "CAT", the other
word "cat" is no longer contained. -/
theorem claim_C3_counterexample :
    (['C','A','T'] ≠ (['c','a','t'] : List Char)) ∧
    (∀ c ∈ (['C','A','T'] : List Char), isAsciiLetter c = true) ∧
    (∀ c ∈ (['c','a','t'] : List Char), isAsciiLetter c = true) ∧
    searchWord
      (removeWord
        (insertWord (insertWord TrieNode.empty (toLowerCase ['C','A','T']))
          (toLowerCase ['c','a','t']))
        (toLowerCase ['C','A','T']))
      (toLowerCase ['c','a','t']) = false :=
  ⟨by decide, by decide, by decide, by decide⟩

/-- Claim C3, amended: the two ASCII-letter words must be distinct after
lower-casing (the store is case-insensitive, so "CAT" and "cat" denote the
same stored word).  Then after inserting both and removing `w`, `w` is no
longer contained and `v` still is; and in full generality removing `w`
leaves the membership of every word other than `w` unchanged. -/
theorem claim_C3_remove_frame :
    (∀ (t : TrieNode) (w v : List Char),
      trieInv t = true →
      (∀ c ∈ w, isAsciiLetter c = true) →
      (∀ c ∈ v, isAsciiLetter c = true) →
      toLowerCase v ≠ toLowerCase w →
      searchWord (removeWord (insertWord (insertWord t (toLowerCase w))
        (toLowerCase v)) (toLowerCase w)) (toLowerCase w) = false ∧
      searchWord (removeWord (insertWord (insertWord t (toLowerCase w))
        (toLowerCase v)) (toLowerCase w)) (toLowerCase v) = true) ∧
    (∀ (t : TrieNode) (w v : List Char), v ≠ w →
      searchWord (removeWord t w) v = searchWord t v) := by
  constructor
  · intro t w v hinv hw hv hvw
    constructor
    · exact searchWord_removeWord_self (toLowerCase w) _
    · rw [removeWord, removeRec_frame (toLowerCase w) _ (toLowerCase v) hvw]
      have hlen : len26 (insertWord t (toLowerCase w)) = true :=
        len26_insertWord _ t (trieInv_eq_true.mp hinv).1
      have h := searchWord_insertWord_filter (toLowerCase v) _ hlen
      rwa [azFilter_of_lower (allLower_toLowerCase hv)] at h
  · intro t w v hvw
    rw [removeWord]
    exact removeRec_frame w t v hvw

/-- Witness for the amended C3 at a concrete input: insert "cat" and "car",
remove "cat": "cat" is gone and "car" is still contained. -/
theorem claim_C3_witness :
    searchWord (removeWord (insertWord (insertWord TrieNode.empty
      (toLowerCase ['c','a','t'])) (toLowerCase ['c','a','r']))
      (toLowerCase ['c','a','t'])) (toLowerCase ['c','a','t']) = false ∧
    searchWord (removeWord (insertWord (insertWord TrieNode.empty
      (toLowerCase ['c','a','t'])) (toLowerCase ['c','a','r']))
      (toLowerCase ['c','a','t'])) (toLowerCase ['c','a','r']) = true :=
  claim_C3_remove_frame.1 TrieNode.empty ['c','a','t'] ['c','a','r']
    trieInv_empty (by decide) (by decide) (by decide)

/-- Claim C4: starting from an empty store, after any sequence of insert and
remove operations the structural no-garbage invariant holds (every non-root
node is word-terminal or owns a child, and every slot list is intact), and
insert and remove each preserve the invariant. -/
theorem claim_C4_no_garbage :
    (∀ ops : List TrieOp, noGarbage (applyOps TrieNode.empty ops) = true) ∧
    (∀ (t : TrieNode) (w : List Char), trieInv t = true →
      trieInv (insertWord t w) = true) ∧
    (∀ (t : TrieNode) (w : List Char), trieInv t = true →
      trieInv (removeWord t w) = true) := by
  refine ⟨fun ops => ?_, fun t w h => trieInv_insertWord w h,
    fun t w h => trieInv_removeWord w h⟩
  exact (trieInv_eq_true.mp (trieInv_applyOps ops TrieNode.empty trieInv_empty)).2

/-- Witness for C4 at a concrete input. -/
theorem claim_C4_witness :
    noGarbage (applyOps TrieNode.empty
      [TrieOp.insert ['a','b'], TrieOp.remove ['a','b']]) = true ∧
    trieInv (insertWord TrieNode.empty ['a']) = true ∧
    trieInv (removeWord TrieNode.empty ['a']) = true :=
  ⟨claim_C4_no_garbage.1 [TrieOp.insert ['a','b'], TrieOp.remove ['a','b']],
    claim_C4_no_garbage.2.1 TrieNode.empty ['a'] trieInv_empty,
    claim_C4_no_garbage.2.2 TrieNode.empty ['a'] trieInv_empty⟩

/-- Counterexample to claim C5 as stated: after `addCustomWord "7"` the
custom store contains the lower-cased empty word (the root becomes
word-terminal because every character of "7" is skipped), yet `isCorrect`
on the empty word returns false rather than true. -/
theorem claim_C5_counterexample :
    searchWord (addCustomWord Engine.empty ['7']).customTrie
      (toLowerCase []) = true ∧
    isCorrect (addCustomWord Engine.empty ['7']) [] = false :=
  ⟨by decide, by decide⟩

/-- Claim C5, amended: for every engine state and every NON-EMPTY word,
`isCorrect` returns the custom-store result, short-circuiting to the
dictionary-store result; and after removing a word from the custom store
while the dictionary store still contains it, `isCorrect` stays true. -/
theorem claim_C5_isCorrect :
    (∀ (e : Engine) (w : List Char), w ≠ [] →
      isCorrect e w = (searchWord e.customTrie (toLowerCase w) ||
        searchWord e.dictionaryTrie (toLowerCase w))) ∧
    (∀ (e : Engine) (w : List Char), w ≠ [] →
      searchWord e.dictionaryTrie (toLowerCase w) = true →
      isCorrect (removeCustomWord e w) w = true) := by
  constructor
  · intro e w hw
    rw [isCorrect, if_neg hw]
  · intro e w hw hd
    have hdict : (removeCustomWord e w).dictionaryTrie = e.dictionaryTrie := by
      rw [removeCustomWord]
      by_cases h : w = []
      · rw [if_pos h]
      · rw [if_neg h]
    rw [isCorrect, if_neg hw, hdict, hd, Bool.or_true]

/-- Witness for the amended C5 at a concrete input: "a" in both stores;
removing it from the custom store keeps `isCorrect` true. -/
theorem claim_C5_witness :
    isCorrect Engine.empty ['a'] =
      (searchWord Engine.empty.customTrie (toLowerCase ['a']) ||
        searchWord Engine.empty.dictionaryTrie (toLowerCase ['a'])) ∧
    isCorrect (removeCustomWord
      ⟨insertWord TrieNode.empty ['a'], insertWord TrieNode.empty ['a']⟩
      ['a']) ['a'] = true :=
  ⟨claim_C5_isCorrect.1 Engine.empty ['a'] (by decide),
    claim_C5_isCorrect.2
      ⟨insertWord TrieNode.empty ['a'], insertWord TrieNode.empty ['a']⟩
      ['a'] (by decide) (by decide)⟩

/-- Counterexample to claim C10 as stated: for w = "5" (which still contains
a non-letter after lowercasing) the word with the non-letter characters
deleted is the empty word, and `isCorrect` on it returns false, not true. -/
theorem claim_C10_counterexample :
    (∃ c ∈ toLowerCase ['5'], isLowerAZ c = false) ∧
    azFilter (toLowerCase ['5']) = [] ∧
    isCorrect (addCustomWord Engine.empty ['5'])
      (azFilter (toLowerCase ['5'])) = false :=
  ⟨by decide, by decide, by decide⟩

/-- Claim C10, amended: insert skips non-letter characters while lookup
rejects them, so inserting a word still containing a non-letter makes
`isCorrect` on it false, while `isCorrect` on the word with the non-letter
characters deleted is true PROVIDED at least one letter remains. -/
theorem claim_C10_skip_vs_reject :
    ∀ (e : Engine) (w : List Char),
      len26 e.customTrie = true →
      (∃ c ∈ toLowerCase w, isLowerAZ c = false) →
      isCorrect (addCustomWord e w) w = false ∧
      (azFilter (toLowerCase w) ≠ [] →
        isCorrect (addCustomWord e w) (azFilter (toLowerCase w)) = true) := by
  intro e w hlen hex
  have hwne : w ≠ [] := by
    rcases hex with ⟨c, hc, _⟩
    intro h
    rw [h] at hc
    simp [toLowerCase] at hc
  constructor
  · rw [isCorrect, if_neg hwne]
    rw [searchWord_invalidChar (toLowerCase w) _ hex,
      searchWord_invalidChar (toLowerCase w) _ hex]
    rfl
  · intro hfne
    have hlow : ∀ c ∈ azFilter (toLowerCase w), isLowerAZ c = true := by
      intro c hc
      exact (List.mem_filter.mp hc).2
    rw [isCorrect, if_neg hfne, toLowerCase_of_lower hlow,
      addCustomWord, if_neg hwne]
    show (searchWord (insertWord e.customTrie (toLowerCase w))
        (azFilter (toLowerCase w)) ||
      searchWord e.dictionaryTrie (azFilter (toLowerCase w))) = true
    rw [searchWord_insertWord_filter (toLowerCase w) e.customTrie hlen,
      Bool.true_or]

/-- Witness for the amended C10 at a concrete input: insert "a-b"; lookup of
"a-b" is false, lookup of "ab" is true. -/
theorem claim_C10_witness :
    isCorrect (addCustomWord Engine.empty ['a','-','b']) ['a','-','b'] = false ∧
    (azFilter (toLowerCase ['a','-','b']) ≠ [] →
      isCorrect (addCustomWord Engine.empty ['a','-','b'])
        (azFilter (toLowerCase ['a','-','b'])) = true) :=
  claim_C10_skip_vs_reject Engine.empty ['a','-','b'] len26_empty (by decide)

/- ------------------------------------------------------------------ -/
/- The reference Levenshtein distance and its reversal symmetry.       -/
/- ------------------------------------------------------------------ -/


theorem lev_nil_cons (y : Char) (ys : List Char) :
    lev [] (y :: ys) = 1 + lev [] ys := by
  simp [lev]

theorem lev_cons_nil (x : Char) (xs : List Char) :
    lev (x :: xs) [] = 1 + lev xs [] := by
  simp [lev]

theorem lev_nil_nil : lev [] [] = 0 := by
  simp [lev]

theorem lev_cons_cons (x : Char) (xs : List Char) (y : Char) (ys : List Char) :
    lev (x :: xs) (y :: ys) =
      min (1 + lev xs (y :: ys))
        (min (1 + lev (x :: xs) ys) ((if x = y then 0 else 1) + lev xs ys)) := by
  simp [lev]

theorem lev_nil_left : ∀ ys : List Char, lev [] ys = ys.length
  | [] => lev_nil_nil
  | y :: ys => by rw [lev_nil_cons, lev_nil_left ys, List.length_cons]; omega

theorem lev_nil_right : ∀ xs : List Char, lev xs [] = xs.length
  | [] => lev_nil_nil
  | x :: xs => by rw [lev_cons_nil, lev_nil_right xs, List.length_cons]; omega

theorem nat_add_min (a b c : Nat) : a + min b c = min (a + b) (a + c) := by
  omega

/-- The Levenshtein recurrence read off the last characters instead of the
first ones. -/
theorem lev_snoc_snoc : ∀ (xs ys : List Char) (x y : Char),
    lev (xs ++ [x]) (ys ++ [y]) =
      min (1 + lev xs (ys ++ [y]))
        (min (1 + lev (xs ++ [x]) ys)
          ((if x = y then 0 else 1) + lev xs ys))
  | [], [], x, y => by
    simp only [List.nil_append]
    rw [lev_cons_cons]
  | [], y₂ :: ys, x, y => by
    have IH := lev_snoc_snoc [] ys x y
    simp only [List.nil_append, List.cons_append] at IH ⊢
    simp only [lev_cons_cons]
    rw [IH]
    simp only [lev_nil_left, List.length_append, List.length_cons,
      List.length_nil]
    omega
  | x₂ :: xs, [], x, y => by
    have IH := lev_snoc_snoc xs [] x y
    simp only [List.nil_append, List.cons_append] at IH ⊢
    simp only [lev_cons_cons]
    rw [IH]
    simp only [lev_nil_right, List.length_append, List.length_cons,
      List.length_nil]
    omega
  | x₂ :: xs, y₂ :: ys, x, y => by
    have IH1 := lev_snoc_snoc xs (y₂ :: ys) x y
    have IH2 := lev_snoc_snoc (x₂ :: xs) ys x y
    have IH3 := lev_snoc_snoc xs ys x y
    simp only [List.cons_append] at IH1 IH2 IH3 ⊢
    simp only [lev_cons_cons]
    rw [IH1, IH2, IH3]
    simp only [nat_add_min]
    ring_nf
    simp only [min_comm, min_assoc, min_left_comm]
  termination_by xs ys => (xs.length, ys.length)

/-- Levenshtein distance is invariant under reversing both arguments. -/
theorem lev_reverse : ∀ (xs ys : List Char),
    lev xs.reverse ys.reverse = lev xs ys
  | [], ys => by
    rw [List.reverse_nil, lev_nil_left, lev_nil_left, List.length_reverse]
  | x :: xs, [] => by
    rw [List.reverse_nil, lev_nil_right, lev_nil_right, List.length_reverse]
  | x :: xs, y :: ys => by
    rw [List.reverse_cons, List.reverse_cons, lev_snoc_snoc]
    rw [← List.reverse_cons y ys, ← List.reverse_cons x xs]
    rw [lev_reverse xs (y :: ys), lev_reverse (x :: xs) ys, lev_reverse xs ys]
    rw [lev_cons_cons]
  termination_by xs ys => (xs.length, ys.length)

/- ------------------------------------------------------------------ -/
/- The DP row maintained by the search is a row of true distances.     -/
/- ------------------------------------------------------------------ -/


theorem headD_map_inits {β : Type} (g : List Char → β) (l : List Char)
    (d : β) : (l.inits.map g).headD d = g [] := by
  cases l with
  | nil => rfl
  | cons a l => rw [List.inits_cons, List.map_cons, List.headD_cons]

theorem inits_eq_cons (l : List Char) : l.inits = [] :: l.inits.tail := by
  cases l with
  | nil => rfl
  | cons a l => rw [List.inits_cons, List.tail_cons]

theorem buildRow_spec (c : Char) (rp : List Char) :
    ∀ (suf pre : List Char),
      buildRow c suf (lev pre.reverse (c :: rp))
        (suf.inits.map fun q => lev ((pre ++ q).reverse) rp) =
      suf.inits.tail.map fun q => lev ((pre ++ q).reverse) (c :: rp)
  | [], pre => by
    rw [show ([] : List Char).inits = [[]] from rfl]
    rw [buildRow]
    rfl
  | tc :: ts, pre => by
    rw [List.inits_cons, List.map_cons, List.map_map, List.tail_cons,
      List.map_map]
    rw [List.append_nil]
    rw [buildRow]
    have hcomp1 : ((fun q => lev ((pre ++ q).reverse) rp) ∘
        fun t => tc :: t) = fun q => lev (((pre ++ [tc]) ++ q).reverse) rp := by
      funext q
      simp only [Function.comp_apply]
      rw [← List.append_cons]
    have hcomp2 : ((fun q => lev ((pre ++ q).reverse) (c :: rp)) ∘
        fun t => tc :: t) =
        fun q => lev (((pre ++ [tc]) ++ q).reverse) (c :: rp) := by
      funext q
      simp only [Function.comp_apply]
      rw [← List.append_cons]
    rw [hcomp1, hcomp2]
    have hhead : ((ts.inits.map
        fun q => lev (((pre ++ [tc]) ++ q).reverse) rp).headD 0) =
        lev ((pre ++ [tc]).reverse) rp := by
      rw [headD_map_inits]
      rw [List.append_nil]
    have hrev : (pre ++ [tc]).reverse = tc :: pre.reverse := by simp
    have hv : min (min (lev pre.reverse (c :: rp) + 1)
        ((ts.inits.map fun q =>
          lev (((pre ++ [tc]) ++ q).reverse) rp).headD 0 + 1))
        (lev pre.reverse rp + (if tc = c then 0 else 1)) =
        lev ((pre ++ [tc]).reverse) (c :: rp) := by
      rw [hhead, hrev, lev_cons_cons]
      omega
    rw [hv]
    rw [buildRow_spec c rp ts (pre ++ [tc])]
    conv_rhs => rw [inits_eq_cons ts]
    simp only [List.map_cons, List.append_nil]

theorem currentRowOf_spec (target : List Char) (c : Char) (rp : List Char) :
    currentRowOf target c (specRow target rp) = specRow target (c :: rp) := by
  have hb := buildRow_spec c rp target []
  simp only [List.nil_append, List.reverse_nil] at hb
  rw [currentRowOf, specRow, headD_map_inits]
  simp only [List.reverse_nil]
  have hleft : lev ([] : List Char) rp + 1 = lev ([] : List Char) (c :: rp) := by
    rw [lev_nil_cons]
    omega
  rw [hleft, hb]
  conv_rhs => rw [specRow, inits_eq_cons target]
  simp only [List.map_cons, List.reverse_nil]

theorem specRow_length (t rp : List Char) :
    (specRow t rp).length = t.length + 1 := by
  rw [specRow, List.length_map, List.length_inits]

theorem specRow_getD {t : List Char} {j : Nat} (rp : List Char)
    (hj : j ≤ t.length) :
    (specRow t rp).getD j 0 = lev ((t.take j).reverse) rp := by
  have hlt : j < (t.inits.map fun p => lev p.reverse rp).length := by
    rw [List.length_map, List.length_inits]
    omega
  rw [specRow, List.getD_eq_getElem?_getD, List.getElem?_eq_getElem hlt]
  rw [Option.getD_some, List.getElem_map, List.getElem_inits]

theorem specRow_last (t rp : List Char) :
    (specRow t rp).getD t.length 0 = lev t.reverse rp := by
  rw [specRow_getD rp (le_refl t.length), List.take_length]

theorem foldl_min_le : ∀ (xs : List Nat) (x : Nat),
    xs.foldl min x ≤ x ∧ ∀ a ∈ xs, xs.foldl min x ≤ a
  | [], x => ⟨le_refl x, by simp⟩
  | y :: ys, x => by
    rw [List.foldl_cons]
    have IH := foldl_min_le ys (min x y)
    refine ⟨le_trans IH.1 (min_le_left x y), fun a ha => ?_⟩
    cases List.mem_cons.mp ha with
    | inl h => rw [h]; exact le_trans IH.1 (min_le_right x y)
    | inr h => exact IH.2 a h

theorem listMin_le_of_mem {l : List Nat} {a : Nat} (h : a ∈ l) :
    listMin l ≤ a := by
  cases l with
  | nil => simp at h
  | cons x xs =>
    rw [listMin]
    cases List.mem_cons.mp h with
    | inl h2 => rw [h2]; exact (foldl_min_le xs x).1
    | inr h2 => exact (foldl_min_le xs x).2 a h2

/-- The pruning lower bound: the minimum of the current row bounds the true
distance from the target to every extension of the current path. -/
theorem listMin_specRow_le (target rp ext : List Char) :
    listMin (specRow target rp) ≤ lev target.reverse (ext ++ rp) := by
  obtain ⟨v, hsuf, hle⟩ :=
    le_levenshtein_append (C := Levenshtein.defaultCost) target.reverse ext rp
  have hpre : v.reverse <+: target := by
    rw [← List.reverse_suffix, List.reverse_reverse]
    exact hsuf
  have hmem : lev v rp ∈ specRow target rp := by
    rw [specRow, List.mem_map]
    exact ⟨v.reverse, (List.mem_inits v.reverse target).mpr hpre,
      by rw [List.reverse_reverse]⟩
  exact le_trans (listMin_le_of_mem hmem) hle

theorem charOf_charIndex {c : Char} (h : isLowerAZ c = true) :
    charOf (charIndex c) = c := by
  rw [isLowerAZ, Bool.and_eq_true, decide_eq_true_eq, decide_eq_true_eq] at h
  rw [charOf, charIndex]
  have h2 : 97 + (c.toNat - 97) = c.toNat := by omega
  rw [h2, Char.ofNat_toNat]

theorem searchSuggestions_eq (t : TrieNode) (letter : Char)
    (target : List Char) (prevRow : List Nat) (maxCost : Int)
    (currentWord : List Char) :
    searchSuggestions t letter target prevRow maxCost currentWord =
      (if ((currentRowOf target letter prevRow).getD target.length 0 : Int)
            ≤ maxCost ∧ t.isEndOfWord = true
        then [(currentWord,
          (currentRowOf target letter prevRow).getD target.length 0)]
        else []) ++
      (if (listMin (currentRowOf target letter prevRow) : Int) ≤ maxCost
        then ((childrenIdx t).attach.map fun x =>
          searchSuggestions x.1.2 (charOf x.1.1) target
            (currentRowOf target letter prevRow) maxCost
            (currentWord ++ [charOf x.1.1])).flatten
        else []) := by
  rw [searchSuggestions]

/-- Every hit the DFS emits carries the true edit distance between the
(reversed) target and the (reversed) emitted word, and lies within the
budget. -/
theorem searchSuggestions_sound : ∀ (n : Nat) (t : TrieNode), sizeOf t ≤ n →
    ∀ (p : List Char) (c : Char) (target : List Char) (maxCost : Int)
      (w : List Char) (d : Nat),
      (w, d) ∈ searchSuggestions t c target (specRow target p.reverse)
        maxCost (p ++ [c]) →
      d = lev target.reverse w.reverse ∧ (d : Int) ≤ maxCost := by
  intro n
  induction n with
  | zero =>
    intro t hle
    cases t with
    | mk ch e =>
      exfalso
      simp only [TrieNode.mk.sizeOf_spec] at hle
      omega
  | succ n ih =>
    intro t hle p c target maxCost w d hmem
    have hrev : c :: p.reverse = (p ++ [c]).reverse := by simp
    rw [searchSuggestions_eq, currentRowOf_spec, List.mem_append] at hmem
    cases hmem with
    | inl hhit =>
      by_cases hcond : ((specRow target (c :: p.reverse)).getD target.length 0
          : Int) ≤ maxCost ∧ t.isEndOfWord = true
      · rw [if_pos hcond, List.mem_singleton] at hhit
        obtain ⟨hw, hd⟩ := Prod.ext_iff.mp hhit
        simp only at hw hd
        constructor
        · rw [hd, hw, specRow_last, hrev]
        · rw [hd]
          exact hcond.1
      · rw [if_neg hcond] at hhit
        simp at hhit
    | inr hrest =>
      by_cases hcond : (listMin (specRow target (c :: p.reverse)) : Int)
          ≤ maxCost
      · rw [if_pos hcond] at hrest
        simp only [List.mem_flatten, List.mem_map, List.mem_attach, true_and,
          Subtype.exists] at hrest
        obtain ⟨l, ⟨⟨i, ci⟩, hmemci, rfl⟩, hwl⟩ := hrest
        simp only at hwl
        rw [hrev] at hwl
        have hsz : sizeOf ci ≤ n := by
          have := sizeOf_lt_of_child (mem_childrenIdx.mp hmemci).2
          omega
        exact ih ci hsz (p ++ [c]) (charOf i) target maxCost w d hwl
      · rw [if_neg hcond] at hrest
        simp at hrest

/-- Every word stored in the subtree below the current node whose true
distance to the target is within the budget is emitted by the DFS,
pruning notwithstanding. -/
theorem searchSuggestions_complete : ∀ (rest : List Char) (t : TrieNode)
    (p : List Char) (c : Char) (target : List Char) (maxCost : Int),
    searchWord t rest = true →
    (lev target.reverse ((p ++ [c] ++ rest).reverse) : Int) ≤ maxCost →
    (p ++ [c] ++ rest, lev target.reverse ((p ++ [c] ++ rest).reverse)) ∈
      searchSuggestions t c target (specRow target p.reverse) maxCost
        (p ++ [c])
  | [], t, p, c, target, maxCost, hstored, hle => by
    rw [searchWord_nil] at hstored
    have hrev : c :: p.reverse = (p ++ [c]).reverse := by simp
    rw [searchSuggestions_eq, currentRowOf_spec, List.mem_append]
    left
    have hdist : (specRow target (c :: p.reverse)).getD target.length 0 =
        lev target.reverse ((p ++ [c]).reverse) := by
      rw [specRow_last, hrev]
    simp only [List.append_nil] at hle ⊢
    rw [if_pos ⟨by rw [hdist]; exact hle, hstored⟩, List.mem_singleton]
    rw [hdist]
  | r :: rs, t, p, c, target, maxCost, hstored, hle => by
    cases hr : isLowerAZ r with
    | false =>
      rw [searchWord_cons_invalid hr] at hstored
      cases hstored
    | true =>
      cases hchild : t.child (charIndex r) with
      | none =>
        rw [searchWord_cons_none hr hchild] at hstored
        cases hstored
      | some sub =>
        rw [searchWord_cons_some hr hchild] at hstored
        have hrev : c :: p.reverse = (p ++ [c]).reverse := by simp
        rw [searchSuggestions_eq, currentRowOf_spec, List.mem_append]
        right
        have hmin : (listMin (specRow target (c :: p.reverse)) : Int)
            ≤ maxCost := by
          have hb := listMin_specRow_le target (c :: p.reverse)
            ((r :: rs).reverse)
          have hform : (r :: rs).reverse ++ (c :: p.reverse) =
              (p ++ [c] ++ (r :: rs)).reverse := by simp
          rw [hform] at hb
          calc (listMin (specRow target (c :: p.reverse)) : Int)
              ≤ (lev target.reverse ((p ++ [c] ++ (r :: rs)).reverse) : Int) :=
                Nat.cast_le.mpr hb
            _ ≤ maxCost := hle
        rw [if_pos hmin]
        simp only [List.mem_flatten, List.mem_map, List.mem_attach, true_and,
          Subtype.exists]
        have hlist : (p ++ [c]) ++ [r] ++ rs = p ++ [c] ++ (r :: rs) := by
          simp
        have IH := searchSuggestions_complete rs sub (p ++ [c]) r target
          maxCost hstored (by rw [hlist]; exact hle)
        rw [hlist] at IH
        refine ⟨_, ⟨⟨charIndex r, sub⟩,
          mem_childrenIdx.mpr ⟨isLowerAZ_charIndex hr, hchild⟩, rfl⟩, ?_⟩
        simp only
        rw [charOf_charIndex hr, hrev]
        exact IH

theorem map_length_inits : ∀ l : List Char,
    l.inits.map List.length = List.range (l.length + 1)
  | [] => rfl
  | a :: l => by
    rw [List.inits_cons, List.map_cons, List.map_map, List.length_cons,
      List.range_succ_eq_map, ← map_length_inits l, List.map_map]
    congr 1

theorem specRow_nil_eq_range (target : List Char) :
    specRow target [] = List.range (target.length + 1) := by
  rw [specRow, ← map_length_inits target]
  apply List.map_congr_left
  intro p _
  rw [lev_nil_right, List.length_reverse]

theorem topSearch_sound {root : TrieNode} {target : List Char} {maxD : Int}
    {w : List Char} {d : Nat}
    (h : (w, d) ∈ ((childrenIdx root).map fun ic =>
      searchSuggestions ic.2 (charOf ic.1) target
        (List.range (target.length + 1)) maxD [charOf ic.1]).flatten) :
    d = lev target.reverse w.reverse ∧ (d : Int) ≤ maxD := by
  rw [List.mem_flatten] at h
  obtain ⟨l, hl, hw⟩ := h
  rw [List.mem_map] at hl
  obtain ⟨⟨i, ci⟩, _, rfl⟩ := hl
  simp only at hw
  rw [← specRow_nil_eq_range target] at hw
  exact searchSuggestions_sound (sizeOf ci) ci (le_refl _) [] (charOf i)
    target maxD w d hw

theorem topSearch_complete {root : TrieNode} {target v : List Char}
    {maxD : Int} (hne : v ≠ []) (hstored : searchWord root v = true)
    (hle : (lev target.reverse v.reverse : Int) ≤ maxD) :
    (v, lev target.reverse v.reverse) ∈ ((childrenIdx root).map fun ic =>
      searchSuggestions ic.2 (charOf ic.1) target
        (List.range (target.length + 1)) maxD [charOf ic.1]).flatten := by
  cases v with
  | nil => exact absurd rfl hne
  | cons c cs =>
    cases hc : isLowerAZ c with
    | false =>
      rw [searchWord_cons_invalid hc] at hstored
      cases hstored
    | true =>
      cases hchild : root.child (charIndex c) with
      | none =>
        rw [searchWord_cons_none hc hchild] at hstored
        cases hstored
      | some sub =>
        rw [searchWord_cons_some hc hchild] at hstored
        have hle2 : (lev target.reverse (([] ++ [c] ++ cs)).reverse : Int)
            ≤ maxD := by
          simp only [List.nil_append, List.cons_append]
          simpa using hle
        have IH := searchSuggestions_complete cs sub [] c target maxD
          hstored hle2
        simp only [List.nil_append, List.cons_append, List.reverse_nil] at IH
        rw [List.mem_flatten]
        refine ⟨_, List.mem_map.mpr ⟨⟨charIndex c, sub⟩,
          mem_childrenIdx.mpr ⟨isLowerAZ_charIndex hc, hchild⟩, rfl⟩, ?_⟩
        simp only
        rw [charOf_charIndex hc, ← specRow_nil_eq_range target]
        simpa using IH

theorem suggestionsRaw_sound {e : Engine} {target : List Char} {maxD : Int}
    {w : List Char} {d : Nat}
    (h : (w, d) ∈ suggestionsRaw e target maxD) :
    d = lev target.reverse w.reverse ∧ (d : Int) ≤ maxD := by
  rw [suggestionsRaw, List.mem_append] at h
  cases h with
  | inl h => exact topSearch_sound h
  | inr h => exact topSearch_sound h

theorem suggestionsRaw_complete {e : Engine} {target v : List Char}
    {maxD : Int} (hne : v ≠ [])
    (hstored : searchWord e.customTrie v = true ∨
      searchWord e.dictionaryTrie v = true)
    (hle : (lev target.reverse v.reverse : Int) ≤ maxD) :
    (v, lev target.reverse v.reverse) ∈ suggestionsRaw e target maxD := by
  rw [suggestionsRaw, List.mem_append]
  cases hstored with
  | inl h => exact Or.inl (topSearch_complete hne h hle)
  | inr h => exact Or.inr (topSearch_complete hne h hle)

/- ------------------------------------------------------------------ -/
/- The sort order and the deduplication pass.                          -/
/- ------------------------------------------------------------------ -/

theorem lexLt_irrefl : ∀ l : List Char, lexLt l l = false
  | [] => rfl
  | a :: as => by
    rw [lexLt, if_neg (lt_irrefl a), if_neg (lt_irrefl a)]
    exact lexLt_irrefl as

theorem lexLt_trans : ∀ {l₁ l₂ l₃ : List Char}, lexLt l₁ l₂ = true →
    lexLt l₂ l₃ = true → lexLt l₁ l₃ = true
  | [], [], _, h1, _ => by cases h1
  | [], _ :: _, [], _, h2 => by cases h2
  | [], _ :: _, _ :: _, _, _ => rfl
  | _ :: _, [], _, h1, _ => by cases h1
  | _ :: _, _ :: _, [], _, h2 => by cases h2
  | a :: as, b :: bs, c :: cs, h1, h2 => by
    rw [lexLt] at h1 h2 ⊢
    by_cases hab : a < b
    · by_cases hbc : b < c
      · rw [if_pos (lt_trans hab hbc)]
      · by_cases hcb : c < b
        · rw [if_neg hbc, if_pos hcb] at h2
          cases h2
        · have hbceq : b = c := le_antisymm (not_lt.mp hcb) (not_lt.mp hbc)
          rw [if_pos (hbceq ▸ hab)]
    · by_cases hba : b < a
      · rw [if_neg hab, if_pos hba] at h1
        cases h1
      · have habeq : a = b := le_antisymm (not_lt.mp hba) (not_lt.mp hab)
        subst habeq
        rw [if_neg hab, if_neg hab] at h1
        by_cases hac : a < c
        · rw [if_pos hac]
        · by_cases hca : c < a
          · rw [if_neg hac, if_pos hca] at h2
            cases h2
          · rw [if_neg hac, if_neg hca] at h2 ⊢
            exact lexLt_trans h1 h2

theorem lexLt_connex : ∀ {l₁ l₂ : List Char}, lexLt l₁ l₂ = false →
    lexLt l₂ l₁ = false → l₁ = l₂
  | [], [], _, _ => rfl
  | [], _ :: _, h1, _ => by cases h1
  | _ :: _, [], _, h2 => by cases h2
  | a :: as, b :: bs, h1, h2 => by
    rw [lexLt] at h1 h2
    by_cases hab : a < b
    · rw [if_pos hab] at h1
      cases h1
    · by_cases hba : b < a
      · rw [if_pos hba] at h2
        cases h2
      · have habeq : a = b := le_antisymm (not_lt.mp hba) (not_lt.mp hab)
        subst habeq
        rw [if_neg hab, if_neg hab] at h1 h2
        rw [lexLt_connex h1 h2]

instance : IsTotal (List Char × Nat) sugLE :=
  ⟨fun a b => by
    rcases Nat.lt_trichotomy a.2 b.2 with h | h | h
    · exact Or.inl (Or.inl h)
    · cases hl : lexLt a.1 b.1 with
      | true => exact Or.inl (Or.inr ⟨h, Or.inl hl⟩)
      | false =>
        cases hl2 : lexLt b.1 a.1 with
        | true => exact Or.inr (Or.inr ⟨h.symm, Or.inl hl2⟩)
        | false => exact Or.inl (Or.inr ⟨h, Or.inr (lexLt_connex hl hl2)⟩)
    · exact Or.inr (Or.inl h)⟩

instance : IsTrans (List Char × Nat) sugLE :=
  ⟨fun a b c hab hbc => by
    rcases hab with h1 | ⟨h1, h1w⟩
    · rcases hbc with h2 | ⟨h2, _⟩
      · exact Or.inl (lt_trans h1 h2)
      · exact Or.inl (h2 ▸ h1)
    · rcases hbc with h2 | ⟨h2, h2w⟩
      · exact Or.inl (h1 ▸ h2)
      · refine Or.inr ⟨h1.trans h2, ?_⟩
        rcases h1w with hw1 | hw1
        · rcases h2w with hw2 | hw2
          · exact Or.inl (lexLt_trans hw1 hw2)
          · exact Or.inl (hw2 ▸ hw1)
        · rcases h2w with hw2 | hw2
          · exact Or.inl (hw1 ▸ hw2)
          · exact Or.inr (hw1.trans hw2)⟩

theorem sugLE_antisymm_fst {a b : List Char × Nat} (hab : sugLE a b)
    (hba : sugLE b a) : a.1 = b.1 := by
  rcases hab with h1 | ⟨h1, h1w⟩
  · rcases hba with h2 | ⟨h2, _⟩
    · exact absurd (lt_trans h1 h2) (lt_irrefl a.2)
    · exact absurd h1 (h2 ▸ lt_irrefl b.2)
  · rcases hba with h2 | ⟨h2, h2w⟩
    · exact absurd h2 (h1 ▸ lt_irrefl a.2)
    · rcases h1w with hw1 | hw1
      · rcases h2w with hw2 | hw2
        · exact absurd (lexLt_trans hw1 hw2) (by rw [lexLt_irrefl]; simp)
        · exact hw2.symm
      · exact hw1

theorem dedupFrom_sublist : ∀ (a : List Char × Nat)
    (l : List (List Char × Nat)), List.Sublist (dedupFrom a l) l
  | _, [] => List.Sublist.refl []
  | a, b :: l => by
    rw [dedupFrom]
    by_cases h : a.1 = b.1
    · rw [if_pos h]
      exact (dedupFrom_sublist a l).cons b
    · rw [if_neg h]
      exact (dedupFrom_sublist b l).cons₂ b

theorem dedupByWord_sublist : ∀ l : List (List Char × Nat),
    List.Sublist (dedupByWord l) l
  | [] => List.Sublist.refl []
  | a :: l => by
    rw [dedupByWord]
    exact (dedupFrom_sublist a l).cons₂ a

/-- When distances are a function of the word, deduplication never loses an
element value: every entry of the input is still present in the output. -/
theorem mem_dedupFrom (f : List Char → Nat) : ∀ (a : List Char × Nat)
    (l : List (List Char × Nat)),
    (∀ x ∈ l, x.2 = f x.1) → a.2 = f a.1 →
    ∀ x ∈ l, x = a ∨ x ∈ dedupFrom a l
  | _, [], _, _, x, hx => by cases hx
  | a, b :: l, hf, hfa, x, hx => by
    rw [dedupFrom]
    cases List.mem_cons.mp hx with
    | inl hxb =>
      by_cases h : a.1 = b.1
      · left
        have hba : b = a := by
          have h2 : b.2 = a.2 := by
            rw [hf b (List.mem_cons_self b l), ← h, hfa]
          cases a with
          | mk a1 a2 =>
            cases b with
            | mk b1 b2 =>
              simp only at h h2
              rw [Prod.mk.injEq]
              exact ⟨h.symm, h2⟩
        rw [hxb, hba]
      · right
        rw [if_neg h, hxb]
        exact List.mem_cons_self b _
    | inr hxl =>
      by_cases h : a.1 = b.1
      · rw [if_pos h]
        exact mem_dedupFrom f a l
          (fun y hy => hf y (List.mem_cons_of_mem b hy)) hfa x hxl
      · rw [if_neg h]
        rcases mem_dedupFrom f b l
            (fun y hy => hf y (List.mem_cons_of_mem b hy))
            (hf b (List.mem_cons_self b l)) x hxl with h2 | h2
        · right
          rw [h2]
          exact List.mem_cons_self b _
        · right
          exact List.mem_cons_of_mem b h2

theorem mem_dedupByWord (f : List Char → Nat)
    (l : List (List Char × Nat)) (hf : ∀ x ∈ l, x.2 = f x.1) :
    ∀ x ∈ l, x ∈ dedupByWord l := by
  cases l with
  | nil => intro x hx; cases hx
  | cons a l =>
    intro x hx
    rw [dedupByWord]
    cases List.mem_cons.mp hx with
    | inl hxa => rw [hxa]; exact List.mem_cons_self a _
    | inr hxl =>
      rcases mem_dedupFrom f a l
          (fun y hy => hf y (List.mem_cons_of_mem a hy))
          (hf a (List.mem_cons_self a l)) x hxl with h2 | h2
      · rw [h2]
        exact List.mem_cons_self a _
      · exact List.mem_cons_of_mem a h2

/-- On a sorted input whose distances are a function of the word, the output
of deduplication has pairwise-distinct words. -/
theorem dedup_nodup_aux (f : List Char → Nat) : ∀ (a : List Char × Nat)
    (l : List (List Char × Nat)),
    List.Pairwise sugLE (a :: l) → (∀ x ∈ a :: l, x.2 = f x.1) →
    ((a :: dedupFrom a l).map Prod.fst).Nodup
  | a, [], _, _ => by simp [dedupFrom]
  | a, b :: l, hp, hf => by
    rw [dedupFrom]
    by_cases h : a.1 = b.1
    · rw [if_pos h]
      apply dedup_nodup_aux f a l
      · have hsub : List.Sublist (a :: l) (a :: b :: l) :=
          ((List.Sublist.refl l).cons b).cons₂ a
        exact hp.sublist hsub
      · intro x hx
        cases List.mem_cons.mp hx with
        | inl h2 => rw [h2]; exact hf a (List.mem_cons_self a _)
        | inr h2 =>
          exact hf x (List.mem_cons_of_mem a (List.mem_cons_of_mem b h2))
    · rw [if_neg h]
      rw [List.map_cons, List.nodup_cons]
      constructor
      · intro hmem
        rw [List.mem_map] at hmem
        obtain ⟨x, hxmem, hxfst⟩ := hmem
        have hxbl : x ∈ b :: l :=
          ((dedupFrom_sublist b l).cons₂ b).subset hxmem
        have hxa : x = a := by
          have h2 : x.2 = a.2 := by
            rw [hf x (List.mem_cons_of_mem a hxbl), hxfst,
              ← hf a (List.mem_cons_self a _)]
          cases x with
          | mk x1 x2 =>
            cases a with
            | mk a1 a2 =>
              simp only at hxfst h2
              rw [Prod.mk.injEq]
              exact ⟨hxfst, h2⟩
        -- a occurs strictly later than b in a sorted list: antisymmetry
        -- forces a.1 = b.1, contradicting h
        rw [List.pairwise_cons] at hp
        have hab : sugLE a b := hp.1 b (List.mem_cons_self b l)
        cases List.mem_cons.mp hxbl with
        | inl hxb => exact h (by rw [← hxa, hxb])
        | inr hxl =>
          rw [List.pairwise_cons] at hp
          have hbx : sugLE b x := hp.2.1 x hxl
          rw [hxa] at hbx
          exact h (sugLE_antisymm_fst hab hbx)
      · apply dedup_nodup_aux f b l
        · exact hp.sublist (((List.Sublist.refl l).cons₂ b).cons a)
        · intro x hx
          exact hf x (List.mem_cons_of_mem a hx)

/- ------------------------------------------------------------------ -/
/- Claim theorems: the suggestion search.                              -/
/- ------------------------------------------------------------------ -/

theorem sortedHits_sound (e : Engine) (target : List Char) (maxD : Int) :
    ∀ x ∈ sortedHits e target maxD, x.2 = lev target x.1 := by
  intro x hx
  rw [sortedHits] at hx
  have hx2 : x ∈ suggestionsRaw e target maxD :=
    (List.perm_insertionSort sugLE _).subset hx
  cases x with
  | mk v d =>
    have h := suggestionsRaw_sound hx2
    simp only at h ⊢
    rw [h.1]
    exact lev_reverse target v

/-- Claim C1: every pair returned by `getSuggestions` on a non-empty query
carries the true Levenshtein edit distance (`lev`, Mathlib's `levenshtein`
with unit costs) between the lowered query and the word, and that distance
is within the budget. -/
theorem claim_C1_distance : ∀ (e : Engine) (w : List Char) (maxD : Int)
    (v : List Char) (d : Nat), w ≠ [] →
    (v, d) ∈ getSuggestions e w maxD →
    d = lev (toLowerCase w) v ∧ (d : Int) ≤ maxD := by
  intro e w maxD v d hw hmem
  rw [getSuggestions, if_neg hw] at hmem
  have hmem2 : (v, d) ∈ sortedHits e (toLowerCase w) maxD :=
    (dedupByWord_sublist _).subset hmem
  have hmem3 : (v, d) ∈ suggestionsRaw e (toLowerCase w) maxD :=
    (List.perm_insertionSort sugLE _).subset hmem2
  obtain ⟨h1, h2⟩ := suggestionsRaw_sound hmem3
  exact ⟨by rw [h1]; exact lev_reverse _ _, h2⟩

/-- Any non-empty word stored in either trie whose true distance to the
lowered query is within the budget appears in the suggestion output, with
that distance. -/
theorem mem_getSuggestions_of_stored {e : Engine} {w v : List Char}
    {maxD : Int} (hw : w ≠ []) (hv : v ≠ [])
    (hstored : searchWord e.customTrie v = true ∨
      searchWord e.dictionaryTrie v = true)
    (hle : (lev (toLowerCase w) v : Int) ≤ maxD) :
    (v, lev (toLowerCase w) v) ∈ getSuggestions e w maxD := by
  rw [getSuggestions, if_neg hw]
  have hle2 : (lev (toLowerCase w).reverse v.reverse : Int) ≤ maxD := by
    rw [lev_reverse]
    exact hle
  have hraw := suggestionsRaw_complete hv hstored hle2
  rw [lev_reverse] at hraw
  have hsorted : (v, lev (toLowerCase w) v) ∈
      sortedHits e (toLowerCase w) maxD := by
    rw [sortedHits]
    exact ((List.perm_insertionSort sugLE _).mem_iff).mpr hraw
  exact mem_dedupByWord (fun u => lev (toLowerCase w) u) _
    (sortedHits_sound e (toLowerCase w) maxD) _ hsorted

/-- Claim C1 witness at a concrete input: the dictionary word "ab" is
returned for the query "ab" with budget 0. -/
theorem claim_C1_witness :
    lev (toLowerCase ['a','b']) ['a','b'] =
      lev (toLowerCase ['a','b']) ['a','b'] ∧
    ((lev (toLowerCase ['a','b']) ['a','b'] : Nat) : Int) ≤ 0 :=
  claim_C1_distance ⟨insertWord TrieNode.empty ['a','b'], TrieNode.empty⟩
    ['a','b'] 0 ['a','b'] (lev (toLowerCase ['a','b']) ['a','b']) (by decide)
    (mem_getSuggestions_of_stored (by decide) (by decide)
      (Or.inr (by decide)) (by decide))

/-- Counterexample to claim C2 as stated: after `addCustomWord "5"` the
custom store contains the empty word (root flagged, all characters
skipped), whose distance 1 to the query "a" is within the budget 1, yet
`getSuggestions` returns nothing: the DFS starts at depth 1 and can never
emit the empty word. -/
theorem claim_C2_counterexample :
    searchWord (addCustomWord Engine.empty ['5']).customTrie [] = true ∧
    (lev (toLowerCase ['a']) [] : Int) ≤ 1 ∧
    getSuggestions (addCustomWord Engine.empty ['5']) ['a'] 1 = [] :=
  ⟨by decide, by decide, by decide⟩

/-- Claim C2, amended: every NON-EMPTY word stored in either store whose
Levenshtein distance to the lowered query is within the budget appears in
the result of `getSuggestions`, pruning notwithstanding. -/
theorem claim_C2_no_lost_hits : ∀ (e : Engine) (w : List Char) (maxD : Int)
    (v : List Char), w ≠ [] → v ≠ [] →
    (searchWord e.customTrie v = true ∨
      searchWord e.dictionaryTrie v = true) →
    (lev (toLowerCase w) v : Int) ≤ maxD →
    (v, lev (toLowerCase w) v) ∈ getSuggestions e w maxD :=
  fun _ _ _ _ hw hv hs hle => mem_getSuggestions_of_stored hw hv hs hle

/-- Claim C2 witness at a concrete input. -/
theorem claim_C2_witness :
    (['a','b'], lev (toLowerCase ['a','b']) ['a','b']) ∈
      getSuggestions ⟨insertWord TrieNode.empty ['a','b'], TrieNode.empty⟩
        ['a','b'] 1 :=
  claim_C2_no_lost_hits ⟨insertWord TrieNode.empty ['a','b'], TrieNode.empty⟩
    ['a','b'] 1 ['a','b'] (by decide) (by decide) (Or.inr (by decide))
    (by decide)

/-- Claim C6: the suggestion list is sorted by ascending distance with ties
broken by ascending lexicographic word order, contains no two entries with
the same word, and deduplication loses no element value of the sorted list
(every sorted entry is still present, so the first occurrence of each word
is kept). -/
theorem claim_C6_sorted_dedup : ∀ (e : Engine) (w : List Char) (maxD : Int),
    w ≠ [] →
    (getSuggestions e w maxD).Pairwise
      (fun a b => a.2 < b.2 ∨ (a.2 = b.2 ∧ lexLt a.1 b.1 = true)) ∧
    ((getSuggestions e w maxD).map Prod.fst).Nodup ∧
    (∀ x, x ∈ getSuggestions e w maxD ↔
      x ∈ sortedHits e (toLowerCase w) maxD) := by
  intro e w maxD hw
  have hgs : getSuggestions e w maxD =
      dedupByWord (sortedHits e (toLowerCase w) maxD) := by
    rw [getSuggestions, if_neg hw]
  have hsorted : List.Pairwise sugLE (sortedHits e (toLowerCase w) maxD) :=
    List.sorted_insertionSort sugLE _
  have hf := sortedHits_sound e (toLowerCase w) maxD
  have hnodup : ((dedupByWord
      (sortedHits e (toLowerCase w) maxD)).map Prod.fst).Nodup := by
    cases hcase : sortedHits e (toLowerCase w) maxD with
    | nil => rw [dedupByWord]; simp
    | cons a l =>
      rw [dedupByWord]
      apply dedup_nodup_aux (fun u => lev (toLowerCase w) u) a l
      · rw [← hcase]
        exact hsorted
      · rw [← hcase]
        exact hf
  have hsubl := dedupByWord_sublist (sortedHits e (toLowerCase w) maxD)
  have hpair : (dedupByWord (sortedHits e (toLowerCase w) maxD)).Pairwise
      sugLE := hsorted.sublist hsubl
  refine ⟨?_, by rw [hgs]; exact hnodup,
    fun x => ⟨fun hx => hsubl.subset (hgs ▸ hx), fun hx => ?_⟩⟩
  · rw [hgs]
    have hne : (dedupByWord (sortedHits e (toLowerCase w) maxD)).Pairwise
        (fun a b => a.1 ≠ b.1) := List.pairwise_map.mp hnodup
    have hboth := hpair.and hne
    apply hboth.imp
    intro a b hab
    rcases hab.1 with h1 | ⟨h1, h1w⟩
    · exact Or.inl h1
    · rcases h1w with h2 | h2
      · exact Or.inr ⟨h1, h2⟩
      · exact absurd h2 hab.2
  · rw [hgs]
    exact mem_dedupByWord (fun u => lev (toLowerCase w) u) _ hf _ hx

/-- Claim C6 witness at a concrete input. -/
theorem claim_C6_witness :
    (getSuggestions Engine.empty ['a'] 0).Pairwise
      (fun a b => a.2 < b.2 ∨ (a.2 = b.2 ∧ lexLt a.1 b.1 = true)) ∧
    ((getSuggestions Engine.empty ['a'] 0).map Prod.fst).Nodup ∧
    (∀ x, x ∈ getSuggestions Engine.empty ['a'] 0 ↔
      x ∈ sortedHits Engine.empty (toLowerCase ['a']) 0) :=
  claim_C6_sorted_dedup Engine.empty ['a'] 0 (by decide)
